import Mathlib

/-!
Shallow embedding of the algorithmic core of `src/main.py` (a Streamlit
smart-grid teaching dashboard).  Python lists are modelled as `List`,
machine floats as exact rationals `ℚ`, dictionaries keyed by node id as
association lists, and exceptions as `Except`.  Each definition is
translated from the source; the few operations provided by the external
graph library (networkx) rather than by repository code are modelled from
the specification and marked as such in their doc comments.
-/

namespace SG

/-! ## Sorting (src/main.py, `SortingAlgorithms`, lines 100-151) -/

variable {α : Type} {K : Type} [LinearOrder K]

/-- One run of the inner loop of `bubble_sort` (`for j in range(0, n-i-1)`),
with `m` the number of iterations (`n-i-1` in the source).  The element
carried forward after a swap is compared with the next position, which the
recursion models by keeping the larger element at the head.  Returns the
updated list together with the comparison and swap counts of this pass. -/
def bpass (key : α → K) : Nat → List α → List α × Nat × Nat
  | 0, l => (l, 0, 0)
  | _ + 1, [] => ([], 0, 0)
  | _ + 1, [a] => ([a], 0, 0)
  | m + 1, a :: b :: t =>
    if key b < key a then
      let r := bpass key m (a :: t)
      (b :: r.1, r.2.1 + 1, r.2.2 + 1)
    else
      let r := bpass key m (b :: t)
      (a :: r.1, r.2.1 + 1, r.2.2)

/-- The outer loop of `bubble_sort` (`for i in range(n)`), iterating the
passes with bounds `n-1, n-2, ..., 0`, accumulating counters. -/
def bubbleIter (key : α → K) : Nat → List α → List α × Nat × Nat
  | 0, l => (l, 0, 0)
  | k + 1, l =>
    let p := bpass key k l
    let r := bubbleIter key k p.1
    (r.1, p.2.1 + r.2.1, p.2.2 + r.2.2)

/-- `SortingAlgorithms.bubble_sort(arr, key_func)`: returns
`(sorted array, comparisons, swaps)`.  The source copies the input before
sorting, so the embedding is a pure function of the input list. -/
def bubble_sort (key : α → K) (l : List α) : List α × Nat × Nat :=
  bubbleIter key l.length l

/-- Left rotation by one, the effect on the `>`-pivot region of one
Lomuto swap `arr[i], arr[j] = arr[j], arr[i]` in `partition`. -/
def rot1 : List α → List α
  | [] => []
  | b :: bs => bs ++ [b]

/-- Lomuto `partition(arr, low, high)` of `quick_sort`, modelled on the
segment `arr[low:high]` (pivot excluded).  State `(A, B)` is the slice
`arr[low:i+1]` of elements found `≤` pivot and the slice `arr[i+1:j]` of
elements found `>` pivot; a swap into the `≤` region rotates `B` left by
one.  Returns `(A, B, comparisons, loop swaps)`; the final pivot-placing
swap (always counted by the source) is accounted for by the caller. -/
def partSeg (key : α → K) (p : α) : List α → List α → List α → List α × List α × Nat × Nat
  | [], A, B => (A, B, 0, 0)
  | x :: t, A, B =>
    if key x ≤ key p then
      let r := partSeg key p t (A ++ [x]) (rot1 B)
      (r.1, r.2.1, r.2.2.1 + 1, r.2.2.2 + 1)
    else
      let r := partSeg key p t A (B ++ [x])
      (r.1, r.2.1, r.2.2.1 + 1, r.2.2.2)

/-- `_quick_sort(arr, low, high)` with Lomuto `partition`, modelled on list
segments: a segment of size `< 2` is returned unchanged (the source's
`if low < high` guard, under which `partition` is not invoked); otherwise
the segment splits as `A ++ pivot :: rot1 B` after the final pivot swap and
the two sides are sorted recursively.  `quick_sort` returns
`(sorted array, comparisons, swaps)`. -/
def qsortRec (key : α → K) : List α → List α × Nat × Nat
  | [] => ([], 0, 0)
  | [a] => ([a], 0, 0)
  | a :: b :: t =>
    let p := (a :: b :: t).getLast (List.cons_ne_nil a (b :: t))
    let s := (a :: b :: t).dropLast
    let pr := partSeg key p s [] []
    let rl := qsortRec key pr.1
    let rr := qsortRec key (rot1 pr.2.1)
    (rl.1 ++ p :: rr.1, pr.2.2.1 + rl.2.1 + rr.2.1, pr.2.2.2 + 1 + rl.2.2 + rr.2.2)
termination_by l => l.length
decreasing_by
  all_goals
    have hrot : ∀ (B : List α), (rot1 B).length = B.length := by
      intro B; cases B <;> simp [rot1]
    have hlen : ∀ (p : α) (t A B : List α),
        (partSeg key p t A B).1.length + (partSeg key p t A B).2.1.length
          = A.length + B.length + t.length := by
      intro p t
      induction t with
      | nil => intro A B; simp [partSeg]
      | cons x t ih =>
        intro A B
        simp only [partSeg]
        by_cases hx : key x ≤ key p
        · have h1 := ih (A ++ [x]) (rot1 B)
          simp [hx, h1, hrot]; omega
        · have h1 := ih A (B ++ [x])
          simp [hx, h1]; omega
    have h := hlen ((a :: b :: t).getLast (List.cons_ne_nil a (b :: t)))
      ((a :: b :: t).dropLast) [] []
    simp only [List.length_nil, List.length_dropLast, List.length_cons, hrot] at h ⊢
    omega

/-- `SortingAlgorithms.quick_sort(arr, key_func)`. -/
def quick_sort (key : α → K) (l : List α) : List α × Nat × Nat :=
  qsortRec key l

/-- Non-decreasing order of key values. -/
def KSorted (key : α → K) (l : List α) : Prop :=
  List.Sorted (fun x y => key x ≤ key y) l

/-! ## Searching (src/main.py, `SearchAlgorithms.binary_search`, lines 167-185)

Python integers are modelled as `Int` (so `right = len(arr) - 1` is `-1` on an
empty array, as in the source), the floor midpoint `(left + right) // 2` as
`Int` division (the operands are non-negative inside the loop), and the
indexing `arr[mid]` as `getD` (the loop invariant keeps `mid` in bounds). -/

/-- The `while left <= right` loop of `binary_search`, carrying the
comparison counter.  One comparison is counted per iteration. -/
def bsAux [Inhabited α] (key : α → K) (arr : List α) (tgt : K) :
    Int → Int → Nat → Int × Nat :=
  fun left right comps =>
  if _h : left ≤ right then
    let mid := (left + right) / 2
    let mv := key (arr.getD mid.toNat default)
    if mv = tgt then (mid, comps + 1)
    else if mv < tgt then bsAux key arr tgt (mid + 1) right (comps + 1)
    else bsAux key arr tgt left (mid - 1) (comps + 1)
  else (-1, comps)
termination_by left right _ => (right + 1 - left).toNat
decreasing_by
  · omega
  · omega

/-- `SearchAlgorithms.binary_search(arr, target, key_func)`: returns the
found index (or `-1`) and the comparison count. -/
def binary_search [Inhabited α] (key : α → K) (arr : List α) (tgt : K) : Int × Nat :=
  bsAux key arr tgt 0 ((arr.length : Int) - 1) 0

/-! ## The network model and graph traversal
(src/main.py, `SmartGridDataStructures._initialize_data` lines 64-95 and
`GraphTraversal` lines 190-234)

The source keeps the grid in a `networkx.Graph`.  The embedding keeps the
node list (insertion order) and the adjacency listing per node (the order
in which `graph.neighbors` yields them: insertion order of the edges).
Well-formedness of the library graph is carried as propositional fields:
adjacency only mentions nodes of the graph, and node ids are unique. -/

structure Net where
  nodes : List String
  adj : String → List String
  adj_mem : ∀ a ∈ nodes, ∀ b ∈ adj a, b ∈ nodes
  nodes_nodup : nodes.Nodup

/-- Errors of the graph layer.  The spec's taxonomy (§7) names
`NodeNotFound` for a referenced node id absent from the network. -/
inductive GErr where
  | nodeNotFound
deriving DecidableEq, Repr

/-- Modelled from the spec: `graph.neighbors(node)` is provided by the
external graph library, not by repository code; per §4.4/§7 a traversal
that references a node id absent from the network signals `NodeNotFound`. -/
def neighborsE (g : Net) (n : String) : Except GErr (List String) :=
  if n ∈ g.nodes then .ok (g.adj n) else .error .nodeNotFound

/-- The Python test `if target and node == target`: a `None` target is
falsy and never matches, and so is an empty-string target. -/
def targetMatches (target : Option String) (n : String) : Bool :=
  match target with
  | none => false
  | some t => !(t == "") && n == t

/-- The common worklist loop of `GraphTraversal.dfs` and
`GraphTraversal.bfs`, with the frontier as a head-pop list.  `comb`
places the freshly discovered neighbours relative to the remaining
frontier: the stack discipline of `dfs` (push `reversed(neighbors)`,
pop from the end) prepends them, the queue discipline of `bfs`
appends them.  A popped node already visited is skipped; a new node is
appended to the visitation order, then the loop returns early if it is
the (truthy) target, and otherwise its not-yet-visited neighbours enter
the frontier.  The fuel argument only forces termination; with the fuel
used by `dfs`/`bfs` the frontier always empties first (proved below). -/
def travAux (g : Net) (comb : List String → List String → List String)
    (target : Option String) :
    Nat → List String → List String → List String → Except GErr (List String × Nat)
  | 0, _, _, path => .ok (path, path.length)
  | _ + 1, [], _, path => .ok (path, path.length)
  | fuel + 1, n :: rest, visited, path =>
    if n ∈ visited then travAux g comb target fuel rest visited path
    else
      let visited' := n :: visited
      let path' := path ++ [n]
      if targetMatches target n then .ok (path', path'.length)
      else
        match neighborsE g n with
        | .error e => .error e
        | .ok nbrs =>
          travAux g comb target fuel
            (comb (nbrs.filter (fun b => decide (b ∉ visited'))) rest) visited' path'

/-- Fuel sufficient to exhaust the frontier: one unit for the initial
frontier entry plus, for every node, one skip plus its degree. -/
def fuelBound (g : Net) : Nat :=
  (g.nodes.map (fun v => 1 + (g.adj v).length)).sum + 1

/-- `GraphTraversal.dfs(graph, start, target)`. -/
def dfs (g : Net) (start : String) (target : Option String) :
    Except GErr (List String × Nat) :=
  travAux g (fun new old => new ++ old) target (fuelBound g) [start] [] []

/-- `GraphTraversal.bfs(graph, start, target)`. -/
def bfs (g : Net) (start : String) (target : Option String) :
    Except GErr (List String × Nat) :=
  travAux g (fun new old => old ++ new) target (fuelBound g) [start] [] []

/-- `b` is reachable from `a` along the adjacency listing. -/
def Reaches (g : Net) (a b : String) : Prop :=
  Relation.ReflTransGen (fun x y => y ∈ g.adj x) a b

/-- The reference 8-node network of `_initialize_data`: adjacency listings
in edge-insertion order, as iterated by the graph library. -/
def refAdj : String → List String := fun n =>
  if n = "solar1" then ["sub1"]
  else if n = "wind1" then ["sub2"]
  else if n = "hydro1" then ["sub1", "sub2"]
  else if n = "sub1" then ["solar1", "hydro1", "city1", "city2", "sub2"]
  else if n = "sub2" then ["wind1", "hydro1", "city2", "factory1", "sub1"]
  else if n = "city1" then ["sub1"]
  else if n = "city2" then ["sub1", "sub2"]
  else if n = "factory1" then ["sub2"]
  else []

def refNodes : List String :=
  ["solar1", "wind1", "hydro1", "sub1", "sub2", "city1", "city2", "factory1"]

def refNet : Net where
  nodes := refNodes
  adj := refAdj
  adj_mem := by decide
  nodes_nodup := by decide

/-! ## Shortest path and enumeration (spec §4.5; the dashboard calls
`nx.shortest_path(..., weight='distance')` and `nx.all_simple_paths` of the
external graph library at src/main.py lines 693-758) -/

/-- Distance lookup over an undirected edge list (first match wins; the
reference list has one entry per unordered pair). -/
def edgeDist : List (String × String × ℚ) → String → String → ℚ
  | [], _, _ => 0
  | (u, v, w) :: rest, a, b =>
    if (u = a ∧ v = b) ∨ (u = b ∧ v = a) then w else edgeDist rest a b

/-- The nine weighted edges of `_initialize_data` (distances are the float
literals of the source, as exact rationals). -/
def refEdges : List (String × String × ℚ) :=
  [("solar1", "sub1", 15/10), ("wind1", "sub2", 12/10), ("hydro1", "sub1", 20/10),
   ("hydro1", "sub2", 18/10), ("sub1", "city1", 10/10), ("sub1", "city2", 25/10),
   ("sub2", "city2", 11/10), ("sub2", "factory1", 13/10), ("sub1", "sub2", 20/10)]

def refDist : String → String → ℚ := edgeDist refEdges

/-- Total weight of a path: the sum of the distances of consecutive pairs. -/
def pathWeight (d : String → String → ℚ) : List String → ℚ
  | a :: b :: t => d a b + pathWeight d (b :: t)
  | _ => 0

/-- Depth-first backtracking enumeration of the simple paths from `cur` to
`tgt` that avoid `seen`, with at most `fuel` further edges. -/
def spAux (g : Net) (tgt : String) : Nat → String → List String → List (List String)
  | fuel, cur, seen =>
    if cur = tgt then [[tgt]]
    else
      match fuel with
      | 0 => []
      | fuel + 1 =>
        ((g.adj cur).filter (fun b => decide (b ∉ cur :: seen))).flatMap
          (fun nb => (spAux g tgt fuel nb (cur :: seen)).map (fun q => cur :: q))

/-- All simple paths from `src` to `tgt` (fuel `g.nodes.length` suffices for
any simple path). -/
def simplePaths (g : Net) (src tgt : String) : List (List String) :=
  spAux g tgt g.nodes.length src []

/-- Modelled from the spec: `nx.shortest_path(graph, source, target,
weight='distance')` is provided by the external graph library; per §4.5 it
is Dijkstra over non-negative weights and returns a path of minimum total
weight together with that weight.  The contract is modelled as a predicate:
any compliant return value is a minimum-weight simple path. -/
def IsShortestPathTo (g : Net) (d : String → String → ℚ) (src tgt : String)
    (p : List String) (w : ℚ) : Prop :=
  p ∈ simplePaths g src tgt ∧ pathWeight d p = w ∧
    ∀ q ∈ simplePaths g src tgt, w ≤ pathWeight d q

/-! ## Connectivity (spec §4.1; the dashboard calls `nx.is_connected` at
src/main.py line 383) -/

/-- The visitation order of an exhaustive DFS from `a`, empty on error. -/
def reachList (g : Net) (a : String) : List String :=
  match dfs g a none with
  | .ok (p, _) => p
  | .error _ => []

/-- Modelled from the spec: `is_connected` is provided by the external
graph library; per §4.1 it reports whether every node is reachable from
every other via undirected edges, and on a network with zero nodes it is
defined as true (vacuous) with no error raised (the embedding is a total
function). -/
def is_connected (g : Net) : Bool :=
  g.nodes.all (fun a => g.nodes.all (fun b => b ∈ reachList g a))

/-- The network with zero nodes. -/
def emptyNet : Net where
  nodes := []
  adj := fun _ => []
  adj_mem := by simp
  nodes_nodup := List.nodup_nil

/-! ## Greedy allocation solver
(src/main.py, `show_optimization_problems`, lines 779-813) -/

structure GenSource where
  id : String
  capacity : ℚ
  cost_per_mw : ℚ
  efficiency : ℚ
deriving DecidableEq, Repr

/-- The sort key of the greedy: `x[1]['cost_per_mw'] / x[1]['efficiency']`. -/
def effCost (s : GenSource) : ℚ := s.cost_per_mw / s.efficiency

/-- The allocation loop of the source: iterate over the sorted sources,
break once `total_generated >= demand`, allocate
`needed = min(demand - total_generated, capacity)` when positive, recording
the plan entry and accumulating cost (`needed * cost_per_mw`) and
generation. -/
def greedyLoop (demand : ℚ) : List GenSource → ℚ → ℚ → List (String × ℚ) →
    List (String × ℚ) × ℚ × ℚ
  | [], gen, cost, plan => (plan, cost, gen)
  | s :: rest, gen, cost, plan =>
    if demand ≤ gen then (plan, cost, gen)
    else
      let needed := min (demand - gen) s.capacity
      if 0 < needed then
        greedyLoop demand rest (gen + needed) (cost + needed * s.cost_per_mw)
          (plan ++ [(s.id, needed)])
      else greedyLoop demand rest gen cost plan

/-- The whole solver: sort ascending by cost-effectiveness (Python's
`sorted` is stable, as is `mergeSort`), then run the allocation loop.
Returns `(generation_plan, total_cost, total_generated)`. -/
def optimize_generation (sources : List GenSource) (demand : ℚ) :
    List (String × ℚ) × ℚ × ℚ :=
  greedyLoop demand
    (sources.mergeSort (fun a b => decide (effCost a ≤ effCost b))) 0 0 []

/-- State-free form of the loop's plan (entries in allocation order). -/
def gplan : List GenSource → ℚ → List (String × ℚ)
  | [], _ => []
  | s :: rest, d =>
    if d ≤ 0 then []
    else
      let need := min d s.capacity
      if 0 < need then (s.id, need) :: gplan rest (d - need) else gplan rest d

/-- State-free form of the loop's accumulated cost. -/
def gcost : List GenSource → ℚ → ℚ
  | [], _ => 0
  | s :: rest, d =>
    if d ≤ 0 then 0
    else
      let need := min d s.capacity
      if 0 < need then need * s.cost_per_mw + gcost rest (d - need) else gcost rest d

/-- State-free form of the loop's accumulated generation. -/
def ggen : List GenSource → ℚ → ℚ
  | [], _ => 0
  | s :: rest, d =>
    if d ≤ 0 then 0
    else
      let need := min d s.capacity
      if 0 < need then need + ggen rest (d - need) else ggen rest d

/-- The loop's allocation as a vector over the source list (zero for the
sources it skips or never reaches). -/
def gvec : List GenSource → ℚ → List ℚ
  | [], _ => []
  | s :: rest, d =>
    if d ≤ 0 then 0 :: gvec rest d
    else
      let need := min d s.capacity
      if 0 < need then need :: gvec rest (d - need) else 0 :: gvec rest d

/-- Cost of an allocation given as `(source, allocated_MW)` pairs:
`allocated * cost_per_mw`, summed. -/
def pairCost (pl : List (GenSource × ℚ)) : ℚ :=
  (pl.map (fun pa => pa.2 * pa.1.cost_per_mw)).sum

/-- The termination potential: one skip plus the degree, summed over the
nodes not yet visited. -/
def phiVis (g : Net) (visited : List String) : Nat :=
  ((g.nodes.filter (fun v => decide (v ∉ visited))).map
    (fun v => 1 + (g.adj v).length)).sum

theorem partSeg_len (key : α → K) (p : α) (t A B : List α) :
    (partSeg key p t A B).1.length + (partSeg key p t A B).2.1.length
      = A.length + B.length + t.length := by
  induction t generalizing A B with
  | nil => simp [partSeg]
  | cons x t ih =>
    simp only [partSeg]
    by_cases h : key x ≤ key p
    · have := ih (A ++ [x]) (rot1 B)
      have hr : (rot1 B).length = B.length := by
        cases B <;> simp [rot1]
      simp [h, this, hr]; omega
    · have := ih A (B ++ [x])
      simp [h, this]; omega

@[simp] theorem rot1_length (B : List α) : (rot1 B).length = B.length := by
  cases B <;> simp [rot1]

/-! ### Bubble sort lemmas -/

theorem bpass_perm (key : α → K) (m : Nat) (l : List α) :
    (bpass key m l).1.Perm l := by
  induction m generalizing l with
  | zero => simp [bpass]
  | succ m ih =>
    match l with
    | [] => simp [bpass]
    | [a] => simp [bpass]
    | a :: b :: t =>
      simp only [bpass]
      by_cases h : key b < key a
      · simp only [h, if_true]
        exact ((ih (a :: t)).cons b).trans (List.Perm.swap a b t)
      · simp only [h, if_false]
        exact (ih (b :: t)).cons a

theorem bpass_length (key : α → K) (m : Nat) (l : List α) :
    (bpass key m l).1.length = l.length :=
  (bpass_perm key m l).length_eq

theorem bpass_drop (key : α → K) (m : Nat) (l : List α) :
    (bpass key m l).1.drop (m + 1) = l.drop (m + 1) := by
  induction m generalizing l with
  | zero => simp [bpass]
  | succ m ih =>
    match l with
    | [] => simp [bpass]
    | [a] => simp [bpass]
    | a :: b :: t =>
      simp only [bpass]
      by_cases h : key b < key a
      · simpa [h] using ih (a :: t)
      · simpa [h] using ih (b :: t)

theorem bpass_take_perm (key : α → K) (m : Nat) (l : List α) :
    ((bpass key m l).1.take (m + 1)).Perm (l.take (m + 1)) := by
  have hp : (bpass key m l).1.Perm l := bpass_perm key m l
  have h1 := List.take_append_drop (m + 1) (bpass key m l).1
  have h2 := List.take_append_drop (m + 1) l
  rw [bpass_drop key m l] at h1
  apply (List.perm_append_right_iff (l.drop (m + 1))).mp
  rw [h1, h2]
  exact hp

theorem bpass_max (key : α → K) (d : α) :
    ∀ (m : Nat) (l : List α), m + 1 ≤ l.length →
      ∀ x ∈ (bpass key m l).1.take (m + 1), key x ≤ key ((bpass key m l).1.getD m d) := by
  intro m
  induction m with
  | zero =>
    intro l hl x hx
    match l with
    | a :: t => simp [bpass] at hx ⊢; simp [hx]
  | succ m ih =>
    intro l hl x hx
    match l with
    | a :: b :: t =>
      have hlen : m + 1 ≤ (b :: t).length := by
        simp at hl ⊢; omega
      simp only [bpass] at hx ⊢
      by_cases h : key b < key a
      · simp only [h, if_true] at hx ⊢
        have ha : a ∈ (bpass key m (a :: t)).1.take (m + 1) := by
          have : a ∈ (a :: t).take (m + 1) := by simp [List.take_cons]
          exact ((bpass_take_perm key m (a :: t)).mem_iff).mpr this
        rcases (List.mem_cons).mp hx with rfl | hx'
        · exact le_of_lt (lt_of_lt_of_le h (ih (a :: t) hlen a ha))
        · exact ih (a :: t) hlen x hx'
      · simp only [h, if_false] at hx ⊢
        have hb : b ∈ (bpass key m (b :: t)).1.take (m + 1) := by
          have : b ∈ (b :: t).take (m + 1) := by simp [List.take_cons]
          exact ((bpass_take_perm key m (b :: t)).mem_iff).mpr this
        rcases (List.mem_cons).mp hx with rfl | hx'
        · exact le_trans (le_of_not_lt h) (ih (b :: t) hlen b hb)
        · exact ih (b :: t) hlen x hx'

theorem bubbleIter_perm (key : α → K) (k : Nat) (l : List α) :
    (bubbleIter key k l).1.Perm l := by
  induction k generalizing l with
  | zero => simp [bubbleIter]
  | succ k ih =>
    simp only [bubbleIter]
    exact (ih (bpass key k l).1).trans (bpass_perm key k l)

theorem bubbleIter_sorted (key : α → K) (d : α) :
    ∀ (k : Nat) (l : List α), k ≤ l.length →
      KSorted key (l.drop k) →
      (∀ x ∈ l.take k, ∀ y ∈ l.drop k, key x ≤ key y) →
      KSorted key (bubbleIter key k l).1 := by
  intro k
  induction k with
  | zero =>
    intro l _ hs _
    simpa [bubbleIter] using hs
  | succ k ih =>
    intro l hk hs hup
    simp only [bubbleIter]
    set l1 := (bpass key k l).1 with hl1
    have hlen : l1.length = l.length := bpass_length key k l
    have hdrop : l1.drop (k + 1) = l.drop (k + 1) := bpass_drop key k l
    have htake : (l1.take (k + 1)).Perm (l.take (k + 1)) := bpass_take_perm key k l
    have hklt : k < l1.length := by omega
    have hmax : ∀ x ∈ l1.take (k + 1), key x ≤ key (l1.getD k d) :=
      bpass_max key d k l (by omega)
    have hgetmem : l1.getD k d ∈ l1.take (k + 1) := by
      rw [List.getD_eq_getElem l1 d hklt]
      have : l1[k] ∈ l1.take (k + 1) := by
        rw [List.mem_take_iff_getElem]
        exact ⟨k, by omega, rfl⟩
      exact this
    have hdropk : l1.drop k = l1.getD k d :: l1.drop (k + 1) := by
      rw [List.getD_eq_getElem l1 d hklt]
      exact List.drop_eq_getElem_cons hklt
    apply ih l1 (by omega)
    · -- the suffix from position k is sorted
      rw [hdropk, hdrop]
      rw [KSorted, List.sorted_cons]
      constructor
      · intro y hy
        exact hup (l1.getD k d) (htake.mem_iff.mp hgetmem) y hy
      · exact hs
    · -- elements of the prefix are below everything in the suffix
      intro x hx y hy
      have hx1 : x ∈ l1.take (k + 1) := List.take_subset_take_left l1 (by omega) hx
      rw [hdropk] at hy
      rcases (List.mem_cons).mp hy with rfl | hy'
      · exact hmax x hx1
      · rw [hdrop] at hy'
        exact hup x (htake.mem_iff.mp hx1) y hy'

theorem bubble_sort_perm (key : α → K) (l : List α) :
    (bubble_sort key l).1.Perm l :=
  bubbleIter_perm key l.length l

theorem bubble_sort_sorted (d : α) (key : α → K) (l : List α) :
    KSorted key (bubble_sort key l).1 := by
  apply bubbleIter_sorted key d l.length l le_rfl
  · simp [KSorted]
  · simp

theorem bpass_of_sorted (key : α → K) (m : Nat) (l : List α) (hs : KSorted key l) :
    bpass key m l = (l, min m (l.length - 1), 0) := by
  induction m generalizing l with
  | zero => simp [bpass]
  | succ m ih =>
    match l with
    | [] => simp [bpass]
    | [a] => simp [bpass]
    | a :: b :: t =>
      have hab : key a ≤ key b := (List.sorted_cons.mp hs).1 b (by simp)
      have hst : KSorted key (b :: t) := (List.sorted_cons.mp hs).2
      simp only [bpass, not_lt.mpr hab, if_false, ih (b :: t) hst]
      simp [List.length_cons]
      omega

theorem bubbleIter_of_sorted (key : α → K) :
    ∀ (k : Nat) (l : List α), k ≤ l.length → KSorted key l →
      bubbleIter key k l = (l, k * (k - 1) / 2, 0) := by
  intro k
  induction k with
  | zero => intro l _ _; simp [bubbleIter]
  | succ k ih =>
    intro l hk hs
    have hp := bpass_of_sorted key k l hs
    have hmin : min k (l.length - 1) = k := by omega
    simp only [bubbleIter, hp, hmin, ih l (by omega) hs]
    refine Prod.ext rfl (Prod.ext ?_ rfl)
    show k + k * (k - 1) / 2 = (k + 1) * (k + 1 - 1) / 2
    match k with
    | 0 => rfl
    | j + 1 =>
      have hx : (j + 2) * (j + 1) = (j + 1) * j + 2 * (j + 1) := by ring
      simp only [Nat.add_sub_cancel]
      rw [hx]
      omega

/-! ### Quicksort lemmas -/

theorem rot1_perm (B : List α) : (rot1 B).Perm B := by
  cases B with
  | nil => simp [rot1]
  | cons b bs =>
    simp only [rot1]
    exact @List.perm_append_comm _ bs [b]

theorem cons_shift_perm (x : α) (A C t : List α) :
    (A ++ [x] ++ C ++ t).Perm (A ++ C ++ (x :: t)) := by
  rw [List.append_assoc (A ++ [x]) C t, List.append_assoc A [x] (C ++ t),
    List.append_assoc A C (x :: t)]
  exact List.Perm.append_left A (@List.perm_middle _ x C t).symm

theorem partSeg_perm (key : α → K) (p : α) (t : List α) :
    ∀ A B, ((partSeg key p t A B).1 ++ (partSeg key p t A B).2.1).Perm (A ++ B ++ t) := by
  induction t with
  | nil => intro A B; simp [partSeg]
  | cons x t ih =>
    intro A B
    simp only [partSeg]
    by_cases h : key x ≤ key p
    · rw [if_pos h]
      refine (ih (A ++ [x]) (rot1 B)).trans ?_
      refine List.Perm.trans ?_ (cons_shift_perm x A B t)
      exact ((rot1_perm B).append_left (A ++ [x])).append_right t
    · rw [if_neg h]
      refine (ih A (B ++ [x])).trans (List.Perm.of_eq ?_)
      simp

theorem partSeg_left_mem (key : α → K) (p : α) (t : List α) :
    ∀ A B, ∀ x ∈ (partSeg key p t A B).1, x ∈ A ∨ key x ≤ key p := by
  induction t with
  | nil => intro A B x hx; exact Or.inl hx
  | cons y t ih =>
    intro A B x hx
    simp only [partSeg] at hx
    by_cases h : key y ≤ key p
    · rw [if_pos h] at hx
      rcases ih (A ++ [y]) (rot1 B) x hx with hA | hle
      · rcases List.mem_append.mp hA with hA' | hy
        · exact Or.inl hA'
        · simp at hy; subst hy; exact Or.inr h
      · exact Or.inr hle
    · rw [if_neg h] at hx
      exact ih A (B ++ [y]) x hx

theorem partSeg_right_mem (key : α → K) (p : α) (t : List α) :
    ∀ A B, ∀ x ∈ (partSeg key p t A B).2.1, x ∈ B ∨ key p < key x := by
  induction t with
  | nil => intro A B x hx; exact Or.inl hx
  | cons y t ih =>
    intro A B x hx
    simp only [partSeg] at hx
    by_cases h : key y ≤ key p
    · rw [if_pos h] at hx
      rcases ih (A ++ [y]) (rot1 B) x hx with hB | hgt
      · exact Or.inl ((rot1_perm B).mem_iff.mp hB)
      · exact Or.inr hgt
    · rw [if_neg h] at hx
      rcases ih A (B ++ [y]) x hx with hB | hgt
      · rcases List.mem_append.mp hB with hB' | hy
        · exact Or.inl hB'
        · simp at hy; subst hy; exact Or.inr (not_le.mp h)
      · exact Or.inr hgt

theorem qsortRec_perm (key : α → K) (l : List α) : (qsortRec key l).1.Perm l := by
  induction l using qsortRec.induct key with
  | case1 => simp [qsortRec]
  | case2 a => simp [qsortRec]
  | case3 a b t p s pr ihl ihr =>
    simp only [qsortRec]
    show ((qsortRec key pr.1).1 ++ p :: (qsortRec key (rot1 pr.2.1)).1).Perm (a :: b :: t)
    have hps : (pr.1 ++ pr.2.1).Perm s := by simpa using partSeg_perm key p s [] []
    have h1 : ((qsortRec key pr.1).1 ++ p :: (qsortRec key (rot1 pr.2.1)).1).Perm
        (pr.1 ++ p :: pr.2.1) :=
      ihl.append (((ihr.trans (rot1_perm pr.2.1))).cons p)
    refine h1.trans ?_
    have h2 : (pr.1 ++ p :: pr.2.1).Perm (p :: (pr.1 ++ pr.2.1)) := List.perm_middle
    refine h2.trans ?_
    have h3 : (p :: (pr.1 ++ pr.2.1)).Perm (p :: s) := hps.cons p
    refine h3.trans ?_
    have h4 : (p :: s).Perm (s ++ [p]) := by
      simpa using (@List.perm_middle _ p s []).symm
    refine h4.trans (List.Perm.of_eq ?_)
    show (a :: b :: t).dropLast ++ [(a :: b :: t).getLast (List.cons_ne_nil a (b :: t))]
      = a :: b :: t
    exact List.dropLast_append_getLast (List.cons_ne_nil a (b :: t))

theorem qsortRec_sorted (key : α → K) (l : List α) : KSorted key (qsortRec key l).1 := by
  induction l using qsortRec.induct key with
  | case1 => simp [qsortRec, KSorted]
  | case2 a => simp [qsortRec, KSorted]
  | case3 a b t p s pr ihl ihr =>
    simp only [qsortRec]
    show KSorted key ((qsortRec key pr.1).1 ++ p :: (qsortRec key (rot1 pr.2.1)).1)
    have hleft : ∀ x ∈ (qsortRec key pr.1).1, key x ≤ key p := by
      intro x hx
      have hx' : x ∈ pr.1 := (qsortRec_perm key pr.1).mem_iff.mp hx
      rcases partSeg_left_mem key p s [] [] x hx' with h | h
      · simp at h
      · exact h
    have hright : ∀ x ∈ (qsortRec key (rot1 pr.2.1)).1, key p < key x := by
      intro x hx
      have hx' : x ∈ pr.2.1 :=
        (rot1_perm pr.2.1).mem_iff.mp ((qsortRec_perm key (rot1 pr.2.1)).mem_iff.mp hx)
      rcases partSeg_right_mem key p s [] [] x hx' with h | h
      · simp at h
      · exact h
    rw [KSorted, List.Sorted, List.pairwise_append]
    refine ⟨ihl, ?_, ?_⟩
    · rw [List.pairwise_cons]
      exact ⟨fun y hy => le_of_lt (hright y hy), ihr⟩
    · intro x hx y hy
      rcases List.mem_cons.mp hy with rfl | hy'
      · exact hleft x hx
      · exact le_trans (hleft x hx) (le_of_lt (hright y hy'))

theorem sorted_key_mono [Inhabited α] (key : α → K) (arr : List α)
    (hs : KSorted key arr) (i j : Nat) (hij : i ≤ j) (hj : j < arr.length) :
    key (arr.getD i default) ≤ key (arr.getD j default) := by
  rcases Nat.eq_or_lt_of_le hij with rfl | hlt
  · exact le_refl _
  · rw [List.getD_eq_getElem arr default (lt_of_le_of_lt hij hj),
      List.getD_eq_getElem arr default hj]
    exact (List.pairwise_iff_getElem.mp hs) i j (lt_of_le_of_lt hij hj) hj hlt

theorem bsAux_correct [Inhabited α] (key : α → K) (arr : List α) (tgt : K)
    (hs : KSorted key arr) :
    ∀ (left right : Int) (c : Nat),
      0 ≤ left → right < (arr.length : Int) →
      (∀ i : Nat, i < arr.length → ((i : Int) < left ∨ right < (i : Int)) →
        key (arr.getD i default) ≠ tgt) →
      ((bsAux key arr tgt left right c).1 = -1 →
        ∀ i : Nat, i < arr.length → key (arr.getD i default) ≠ tgt) ∧
      ((bsAux key arr tgt left right c).1 ≠ -1 →
        0 ≤ (bsAux key arr tgt left right c).1 ∧
        (bsAux key arr tgt left right c).1 < (arr.length : Int) ∧
        key (arr.getD (bsAux key arr tgt left right c).1.toNat default) = tgt) := by
  intro left right c
  induction left, right, c using bsAux.induct key arr tgt with
  | case1 left right c hlr mid mv hmv =>
    -- found at the midpoint
    intro h0 hrl _hex
    rw [bsAux]
    simp only [dif_pos hlr, if_pos hmv]
    refine ⟨fun hcon => absurd hcon (by omega), fun _ => ⟨by omega, by omega, ?_⟩⟩
    exact hmv
  | case2 left right c hlr mid mv hne hlt ih =>
    -- mv < tgt : continue right of mid
    intro h0 hrl hex
    rw [bsAux]
    simp only [dif_pos hlr, if_neg hne, if_pos hlt]
    apply ih (by omega) hrl
    intro i hi hcase
    rcases hcase with hless | hmore
    · by_cases hil : (i : Int) < left
      · exact hex i hi (Or.inl hil)
      · -- left ≤ i ≤ mid : keys there are ≤ mv < tgt
        intro hkey
        have hmid : mid.toNat < arr.length := by omega
        have : key (arr.getD i default) ≤ key (arr.getD mid.toNat default) :=
          sorted_key_mono key arr hs i mid.toNat (by omega) hmid
        rw [hkey] at this
        exact absurd (lt_of_le_of_lt this hlt) (lt_irrefl tgt)
    · exact hex i hi (Or.inr hmore)
  | case3 left right c hlr mid mv hne hnlt ih =>
    -- tgt < mv : continue left of mid
    intro h0 hrl hex
    rw [bsAux]
    simp only [dif_pos hlr, if_neg hne, if_neg hnlt]
    apply ih h0 (by omega)
    intro i hi hcase
    rcases hcase with hless | hmore
    · exact hex i hi (Or.inl hless)
    · by_cases hir : right < (i : Int)
      · exact hex i hi (Or.inr hir)
      · -- mid ≤ i ≤ right : keys there are ≥ mv > tgt
        intro hkey
        have hmv : tgt < mv := lt_of_le_of_ne (le_of_not_lt hnlt)
          (fun heq => hne heq.symm)
        have hmid : mid.toNat ≤ i := by omega
        have : key (arr.getD mid.toNat default) ≤ key (arr.getD i default) :=
          sorted_key_mono key arr hs mid.toNat i hmid hi
        rw [hkey] at this
        exact absurd (lt_of_lt_of_le hmv this) (lt_irrefl tgt)
  | case4 left right c hlr =>
    -- left > right : the whole array is excluded
    intro h0 hrl hex
    rw [bsAux]
    simp only [dif_neg hlr]
    refine ⟨fun _ i hi => hex i hi (by omega), fun hcon => absurd rfl hcon⟩

/-! ### Top-level binary search correctness -/

theorem binary_search_found [Inhabited α] (key : α → K) (arr : List α) (tgt : K)
    (hs : KSorted key arr) (hmem : ∃ x ∈ arr, key x = tgt) :
    ∃ i : Nat, (binary_search key arr tgt).1 = (i : Int) ∧ i < arr.length ∧
      key (arr.getD i default) = tgt := by
  have h := bsAux_correct key arr tgt hs 0 ((arr.length : Int) - 1) 0
    (le_refl 0) (by omega) (by intro i hi hcase; omega)
  rw [binary_search]
  by_cases hneg : (bsAux key arr tgt 0 ((arr.length : Int) - 1) 0).1 = -1
  · exfalso
    obtain ⟨x, hx, hkx⟩ := hmem
    obtain ⟨i, hi, rfl⟩ := List.mem_iff_getElem.mp hx
    refine h.1 hneg i hi ?_
    rw [List.getD_eq_getElem arr default hi]
    exact hkx
  · obtain ⟨hge, hlt, hkey⟩ := h.2 hneg
    exact ⟨(bsAux key arr tgt 0 ((arr.length : Int) - 1) 0).1.toNat,
      by omega, by omega, hkey⟩

theorem binary_search_absent [Inhabited α] (key : α → K) (arr : List α) (tgt : K)
    (hs : KSorted key arr) (hno : ∀ x ∈ arr, key x ≠ tgt) :
    (binary_search key arr tgt).1 = -1 := by
  have h := bsAux_correct key arr tgt hs 0 ((arr.length : Int) - 1) 0
    (le_refl 0) (by omega) (by intro i hi hcase; omega)
  rw [binary_search]
  by_contra hne
  obtain ⟨hge, hlt, hkey⟩ := h.2 hne
  have hmem : arr.getD (bsAux key arr tgt 0 ((arr.length : Int) - 1) 0).1.toNat default ∈ arr := by
    rw [List.getD_eq_getElem arr default (by omega)]
    exact List.getElem_mem _
  exact hno _ hmem hkey

/-! ### Traversal invariants -/

theorem travAux_count (g : Net) (comb : List String → List String → List String)
    (target : Option String) :
    ∀ (fuel : Nat) (frontier visited path : List String) (p : List String) (c : Nat),
      travAux g comb target fuel frontier visited path = .ok (p, c) → c = p.length := by
  intro fuel
  induction fuel with
  | zero =>
    intro fr visited path p c h
    simp only [travAux, Except.ok.injEq, Prod.mk.injEq] at h
    obtain ⟨rfl, rfl⟩ := h
    rfl
  | succ fuel ih =>
    intro fr visited path p c h
    cases fr with
    | nil =>
      simp only [travAux, Except.ok.injEq, Prod.mk.injEq] at h
      obtain ⟨rfl, rfl⟩ := h
      rfl
    | cons n rest =>
      simp only [travAux] at h
      by_cases hv : n ∈ visited
      · rw [if_pos hv] at h
        exact ih rest visited path p c h
      · rw [if_neg hv] at h
        by_cases ht : targetMatches target n
        · rw [if_pos ht] at h
          simp only [Except.ok.injEq, Prod.mk.injEq] at h
          obtain ⟨rfl, rfl⟩ := h
          rfl
        · rw [if_neg ht] at h
          cases hnb : neighborsE g n with
          | error e => rw [hnb] at h; exact absurd h (by simp)
          | ok nbrs =>
            rw [hnb] at h
            exact ih _ _ _ p c h

theorem travAux_nodup (g : Net) (comb : List String → List String → List String)
    (target : Option String) :
    ∀ (fuel : Nat) (frontier visited path : List String) (p : List String) (c : Nat),
      path.Nodup → (∀ x, x ∈ visited ↔ x ∈ path) →
      travAux g comb target fuel frontier visited path = .ok (p, c) → p.Nodup := by
  intro fuel
  induction fuel with
  | zero =>
    intro fr visited path p c hnd _ h
    simp only [travAux, Except.ok.injEq, Prod.mk.injEq] at h
    exact h.1 ▸ hnd
  | succ fuel ih =>
    intro fr visited path p c hnd hiff h
    cases fr with
    | nil =>
      simp only [travAux, Except.ok.injEq, Prod.mk.injEq] at h
      exact h.1 ▸ hnd
    | cons n rest =>
      simp only [travAux] at h
      by_cases hv : n ∈ visited
      · rw [if_pos hv] at h
        exact ih rest visited path p c hnd hiff h
      · rw [if_neg hv] at h
        have hnp : n ∉ path := fun hc => hv ((hiff n).mpr hc)
        have hnd' : (path ++ [n]).Nodup := by
          simp [List.nodup_append, hnd, hnp]
        have hiff' : ∀ x, x ∈ n :: visited ↔ x ∈ path ++ [n] := by
          intro x
          simp only [List.mem_cons, List.mem_append, List.mem_singleton, hiff x]
          tauto
        by_cases ht : targetMatches target n
        · rw [if_pos ht] at h
          simp only [Except.ok.injEq, Prod.mk.injEq] at h
          exact h.1 ▸ hnd'
        · rw [if_neg ht] at h
          cases hnb : neighborsE g n with
          | error e => rw [hnb] at h; exact absurd h (by simp)
          | ok nbrs =>
            rw [hnb] at h
            exact ih _ _ _ p c hnd' hiff' h

theorem travAux_sound (g : Net) (comb : List String → List String → List String)
    (target : Option String)
    (hcomb : ∀ a b x, x ∈ comb a b ↔ x ∈ a ∨ x ∈ b) (s : String) :
    ∀ (fuel : Nat) (frontier visited path : List String) (p : List String) (c : Nat),
      (∀ x ∈ frontier, Reaches g s x) → (∀ x ∈ path, Reaches g s x) →
      travAux g comb target fuel frontier visited path = .ok (p, c) →
      ∀ x ∈ p, Reaches g s x := by
  intro fuel
  induction fuel with
  | zero =>
    intro fr visited path p c _ hpath h
    simp only [travAux, Except.ok.injEq, Prod.mk.injEq] at h
    exact h.1 ▸ hpath
  | succ fuel ih =>
    intro fr visited path p c hfr hpath h
    cases fr with
    | nil =>
      simp only [travAux, Except.ok.injEq, Prod.mk.injEq] at h
      exact h.1 ▸ hpath
    | cons n rest =>
      simp only [travAux] at h
      have hrest : ∀ x ∈ rest, Reaches g s x := fun x hx => hfr x (List.mem_cons_of_mem n hx)
      by_cases hv : n ∈ visited
      · rw [if_pos hv] at h
        exact ih rest visited path p c hrest hpath h
      · rw [if_neg hv] at h
        have hn : Reaches g s n := hfr n (List.mem_cons_self n rest)
        have hpath' : ∀ x ∈ path ++ [n], Reaches g s x := by
          intro x hx
          rcases List.mem_append.mp hx with hx' | hx'
          · exact hpath x hx'
          · simp only [List.mem_singleton] at hx'
            exact hx' ▸ hn
        by_cases ht : targetMatches target n
        · rw [if_pos ht] at h
          simp only [Except.ok.injEq, Prod.mk.injEq] at h
          exact h.1 ▸ hpath'
        · rw [if_neg ht] at h
          cases hnb : neighborsE g n with
          | error e => rw [hnb] at h; exact absurd h (by simp)
          | ok nbrs =>
            rw [hnb] at h
            have hnbrs : nbrs = g.adj n := by
              by_cases hng : n ∈ g.nodes
              · rw [neighborsE, if_pos hng] at hnb
                cases hnb
                rfl
              · rw [neighborsE, if_neg hng] at hnb
                exact absurd hnb (by simp)
            have hfr' : ∀ x ∈ comb (nbrs.filter (fun b => decide (b ∉ n :: visited))) rest,
                Reaches g s x := by
              intro x hx
              rcases (hcomb _ _ x).mp hx with hx' | hx'
              · have : x ∈ g.adj n := hnbrs ▸ List.mem_of_mem_filter hx'
                exact Relation.ReflTransGen.tail hn this
              · exact hrest x hx'
            exact ih _ _ _ p c hfr' hpath' h

theorem filter_notmem_cons (l visited : List String) (n : String) (hn : n ∉ l) :
    l.filter (fun v => decide (v ∉ n :: visited))
      = l.filter (fun v => decide (v ∉ visited)) := by
  apply List.filter_congr
  intro x hx
  have hxn : x ≠ n := fun h => hn (h ▸ hx)
  simp [List.mem_cons, hxn]

theorem sum_filter_visit (f : String → Nat) :
    ∀ (l visited : List String) (n : String), l.Nodup → n ∈ l → n ∉ visited →
      ((l.filter (fun v => decide (v ∉ n :: visited))).map f).sum + f n
        = ((l.filter (fun v => decide (v ∉ visited))).map f).sum := by
  intro l
  induction l with
  | nil => intro visited n _ h _; exact absurd h (List.not_mem_nil n)
  | cons a t ih =>
    intro visited n hnd hmem hnv
    rcases List.mem_cons.mp hmem with rfl | hmem'
    · have hAt : n ∉ t := (List.nodup_cons.mp hnd).1
      rw [List.filter_cons, List.filter_cons]
      have h1 : (decide (n ∉ n :: visited)) = false := by simp
      have h2 : (decide (n ∉ visited)) = true := by simp [hnv]
      rw [h1, h2]
      rw [if_neg (by simp), if_pos rfl]
      simp only [List.map_cons, List.sum_cons]
      rw [filter_notmem_cons t visited n hAt]
      omega
    · have hnd' := (List.nodup_cons.mp hnd).2
      have hne : a ≠ n := fun h => (List.nodup_cons.mp hnd).1 (h ▸ hmem')
      rw [List.filter_cons, List.filter_cons]
      have hsame : (decide (a ∉ n :: visited)) = (decide (a ∉ visited)) := by
        simp [List.mem_cons, hne]
      rw [hsame]
      by_cases hav : a ∉ visited
      · rw [if_pos (by simpa using hav), if_pos (by simpa using hav)]
        simp only [List.map_cons, List.sum_cons]
        have := ih visited n hnd' hmem' hnv
        omega
      · rw [if_neg (by simpa using hav), if_neg (by simpa using hav)]
        exact ih visited n hnd' hmem' hnv

theorem phiVis_visit (g : Net) (visited : List String) (n : String)
    (hng : n ∈ g.nodes) (hnv : n ∉ visited) :
    phiVis g (n :: visited) + (1 + (g.adj n).length) = phiVis g visited :=
  sum_filter_visit (fun v => 1 + (g.adj v).length) g.nodes visited n
    g.nodes_nodup hng hnv

/-- With enough fuel and no target, the loop exhausts the frontier and the
final visitation order contains the initial path and frontier and is closed
under adjacency. -/
theorem travAux_complete (g : Net) (comb : List String → List String → List String)
    (hcomb_mem : ∀ a b x, x ∈ comb a b ↔ x ∈ a ∨ x ∈ b)
    (hcomb_len : ∀ a b, (comb a b).length = a.length + b.length) :
    ∀ (fuel : Nat) (frontier visited path : List String),
      (∀ x, x ∈ visited ↔ x ∈ path) →
      (∀ x ∈ frontier, x ∈ g.nodes) →
      (∀ v ∈ visited, ∀ w ∈ g.adj v, w ∈ visited ∨ w ∈ frontier) →
      frontier.length + phiVis g visited ≤ fuel →
      ∃ p, travAux g comb none fuel frontier visited path = .ok (p, p.length) ∧
        (∀ x ∈ path, x ∈ p) ∧ (∀ x ∈ frontier, x ∈ p) ∧
        (∀ v ∈ p, ∀ w ∈ g.adj v, w ∈ p) := by
  intro fuel
  induction fuel with
  | zero =>
    intro frontier visited path hiff hsub hcl hfuel
    have hfr : frontier = [] := by
      cases frontier with
      | nil => rfl
      | cons a t => simp at hfuel
    subst hfr
    refine ⟨path, by simp [travAux], fun x hx => hx, by simp, ?_⟩
    intro v hv w hw
    rcases hcl v ((hiff v).mpr hv) w hw with h | h
    · exact (hiff w).mp h
    · exact absurd h (List.not_mem_nil w)
  | succ fuel ih =>
    intro frontier visited path hiff hsub hcl hfuel
    cases frontier with
    | nil =>
      refine ⟨path, by simp [travAux], fun x hx => hx, by simp, ?_⟩
      intro v hv w hw
      rcases hcl v ((hiff v).mpr hv) w hw with h | h
      · exact (hiff w).mp h
      · exact absurd h (List.not_mem_nil w)
    | cons n rest =>
      simp only [travAux]
      by_cases hv : n ∈ visited
      · rw [if_pos hv]
        have hcl' : ∀ v ∈ visited, ∀ w ∈ g.adj v, w ∈ visited ∨ w ∈ rest := by
          intro v hvv w hw
          rcases hcl v hvv w hw with h | h
          · exact Or.inl h
          · rcases List.mem_cons.mp h with rfl | h'
            · exact Or.inl hv
            · exact Or.inr h'
        have hfuel' : rest.length + phiVis g visited ≤ fuel := by
          simp only [List.length_cons] at hfuel; omega
        obtain ⟨p, hp, hpath, hfr, hclosed⟩ := ih rest visited path hiff
          (fun x hx => hsub x (List.mem_cons_of_mem n hx)) hcl' hfuel'
        refine ⟨p, hp, hpath, ?_, hclosed⟩
        intro x hx
        rcases List.mem_cons.mp hx with rfl | hx'
        · exact hpath x ((hiff x).mp hv)
        · exact hfr x hx'
      · rw [if_neg hv]
        have hng : n ∈ g.nodes := hsub n (List.mem_cons_self n rest)
        have htm : targetMatches none n = false := rfl
        rw [if_neg (by simp [htm])]
        rw [neighborsE, if_pos hng]
        simp only
        set front' := comb ((g.adj n).filter (fun b => decide (b ∉ n :: visited))) rest
          with hfront'
        have hiff' : ∀ x, x ∈ n :: visited ↔ x ∈ path ++ [n] := by
          intro x
          simp only [List.mem_cons, List.mem_append, List.mem_singleton, hiff x]
          tauto
        have hsub' : ∀ x ∈ front', x ∈ g.nodes := by
          intro x hx
          rcases (hcomb_mem _ _ x).mp hx with hx' | hx'
          · exact g.adj_mem n hng x (List.mem_of_mem_filter hx')
          · exact hsub x (List.mem_cons_of_mem n hx')
        have hcl' : ∀ v ∈ n :: visited, ∀ w ∈ g.adj v, w ∈ n :: visited ∨ w ∈ front' := by
          intro v hvv w hw
          rcases List.mem_cons.mp hvv with heq | hvv'
          · rw [heq] at hw
            by_cases hwv : w ∈ n :: visited
            · exact Or.inl hwv
            · refine Or.inr ((hcomb_mem _ _ w).mpr (Or.inl ?_))
              exact List.mem_filter.mpr ⟨hw, by simpa using hwv⟩
          · rcases hcl v hvv' w hw with h | h
            · exact Or.inl (List.mem_cons_of_mem n h)
            · rcases List.mem_cons.mp h with heq | h'
              · rw [heq]
                exact Or.inl (List.mem_cons_self n visited)
              · exact Or.inr ((hcomb_mem _ _ w).mpr (Or.inr h'))
        have hfuel' : front'.length + phiVis g (n :: visited) ≤ fuel := by
          have hphi := phiVis_visit g visited n hng hv
          have hlen : front'.length ≤ (g.adj n).length + rest.length := by
            rw [hfront', hcomb_len]
            have := List.length_filter_le (fun b => decide (b ∉ n :: visited)) (g.adj n)
            omega
          simp only [List.length_cons] at hfuel
          omega
        obtain ⟨p, hp, hpath, hfr, hclosed⟩ := ih front' (n :: visited) (path ++ [n])
          hiff' hsub' hcl' hfuel'
        refine ⟨p, hp, ?_, ?_, hclosed⟩
        · intro x hx
          exact hpath x (List.mem_append.mpr (Or.inl hx))
        · intro x hx
          rcases List.mem_cons.mp hx with rfl | hx'
          · exact hpath x (List.mem_append.mpr (Or.inr (List.mem_singleton.mpr rfl)))
          · exact hfr x ((hcomb_mem _ _ x).mpr (Or.inr hx'))

theorem phiVis_nil (g : Net) :
    phiVis g [] = (g.nodes.map (fun v => 1 + (g.adj v).length)).sum := by
  simp [phiVis]

/-- An exhaustive traversal (no target) from a node of the graph succeeds,
and its visitation order consists of exactly the reachable nodes. -/
theorem trav_run (g : Net) (comb : List String → List String → List String)
    (hcomb_mem : ∀ a b x, x ∈ comb a b ↔ x ∈ a ∨ x ∈ b)
    (hcomb_len : ∀ a b, (comb a b).length = a.length + b.length)
    (start : String) (hstart : start ∈ g.nodes) :
    ∃ p, travAux g comb none (fuelBound g) [start] [] [] = .ok (p, p.length) ∧
      ∀ x, x ∈ p ↔ Reaches g start x := by
  obtain ⟨p, hp, _, hfr, hcl⟩ := travAux_complete g comb hcomb_mem hcomb_len
    (fuelBound g) [start] [] [] (by simp) (by simpa using hstart) (by simp)
    (by rw [fuelBound, phiVis_nil g] at *; simp; omega)
  refine ⟨p, hp, fun x => ⟨?_, ?_⟩⟩
  · intro hx
    refine travAux_sound g comb none hcomb_mem start (fuelBound g) [start] [] []
      p p.length ?_ (by simp) hp x hx
    intro y hy
    rcases List.mem_singleton.mp hy with rfl
    exact Relation.ReflTransGen.refl
  · intro hr
    induction hr with
    | refl => exact hfr start (List.mem_singleton.mpr rfl)
    | tail _hab hbc ih => exact hcl _ ih _ hbc

/-- C4: for every network and every start node present in it, the
visitation orders returned by exhaustive DFS and BFS (no target) succeed
and have the same set of nodes, namely exactly the nodes reachable from
the start along edges. -/
theorem dfs_bfs_reach_sets (g : Net) (start : String) (hstart : start ∈ g.nodes) :
    ∃ dp bp : List String,
      dfs g start none = .ok (dp, dp.length) ∧
      bfs g start none = .ok (bp, bp.length) ∧
      (∀ x, x ∈ dp ↔ x ∈ bp) ∧
      (∀ x, x ∈ dp ↔ Reaches g start x) := by
  obtain ⟨dp, hdp, hdr⟩ := trav_run g (fun new old => new ++ old)
    (fun a b x => List.mem_append) (fun a b => List.length_append a b) start hstart
  obtain ⟨bp, hbp, hbr⟩ := trav_run g (fun new old => old ++ new)
    (fun a b x => by rw [List.mem_append]; tauto)
    (fun a b => by rw [List.length_append]; omega) start hstart
  exact ⟨dp, bp, hdp, hbp, fun x => by rw [hdr x, hbr x], hdr⟩

/-- C4 witness: the concrete run on the reference network. -/
theorem dfs_bfs_reach_sets_witness :
    ("solar1" ∈ refNet.nodes) ∧
      ∃ dp bp : List String,
        dfs refNet "solar1" none = .ok (dp, dp.length) ∧
        bfs refNet "solar1" none = .ok (bp, bp.length) ∧
        (∀ x, x ∈ dp ↔ x ∈ bp) ∧
        (∀ x, x ∈ dp ↔ Reaches refNet "solar1" x) :=
  ⟨by decide, dfs_bfs_reach_sets refNet "solar1" (by decide)⟩

/-- One step of the loop on a start node absent from the network: the start
is popped, visited, found not to be the (truthy) target, and the neighbor
query fails with `NodeNotFound`. -/
theorem travAux_missing_start (g : Net)
    (comb : List String → List String → List String) (target : Option String)
    (fuel : Nat) (start : String) (hstart : start ∉ g.nodes)
    (ht : targetMatches target start = false) :
    travAux g comb target (fuel + 1) [start] [] [] = .error .nodeNotFound := by
  simp only [travAux]
  rw [if_neg (List.not_mem_nil start)]
  rw [if_neg (by simp [ht])]
  rw [neighborsE, if_neg hstart]

/-- C7 (amended): invoking DFS or BFS with a start node absent from the
network signals `NodeNotFound`, provided the call's target does not match
the start under Python truthiness (in particular whenever there is no
target).  When the target equals the absent start, the source returns
`([start], 1)` before ever querying the graph — see the counterexample. -/
theorem dfs_bfs_missing_start (g : Net) (start : String) (target : Option String)
    (hstart : start ∉ g.nodes) (ht : targetMatches target start = false) :
    dfs g start target = .error .nodeNotFound ∧
      bfs g start target = .error .nodeNotFound := by
  constructor
  · show travAux g _ target ((g.nodes.map (fun v => 1 + (g.adj v).length)).sum + 1)
      [start] [] [] = .error .nodeNotFound
    exact travAux_missing_start g _ target _ start hstart ht
  · show travAux g _ target ((g.nodes.map (fun v => 1 + (g.adj v).length)).sum + 1)
      [start] [] [] = .error .nodeNotFound
    exact travAux_missing_start g _ target _ start hstart ht

/-- C7 witness: a concrete missing start with no target errors out. -/
theorem dfs_bfs_missing_start_witness :
    dfs refNet "ghost" none = .error .nodeNotFound ∧
      bfs refNet "ghost" none = .error .nodeNotFound :=
  dfs_bfs_missing_start refNet "ghost" none (by decide) rfl

/-- C7 counterexample: with the target equal to the absent start node, both
traversals return a normal result `(["ghost"], 1)` and raise nothing, so
"for every target, an error is raised" fails on the code. -/
theorem dfs_bfs_missing_start_counterexample :
    ("ghost" ∉ refNet.nodes) ∧
      dfs refNet "ghost" (some "ghost") = .ok (["ghost"], 1) ∧
      bfs refNet "ghost" (some "ghost") = .ok (["ghost"], 1) :=
  ⟨by decide, rfl, rfl⟩

/-- C10: any successful DFS or BFS result (any start, any target) lists no
node twice and reports a count equal to the length of the visitation
order. -/
theorem dfs_bfs_nodup_count (g : Net) (start : String) (target : Option String)
    (p q : List String) (c e : Nat) :
    (dfs g start target = .ok (p, c) → p.Nodup ∧ c = p.length) ∧
    (bfs g start target = .ok (q, e) → q.Nodup ∧ e = q.length) := by
  constructor
  · intro h
    refine ⟨travAux_nodup g _ target (fuelBound g) [start] [] [] p c
      List.nodup_nil (fun x => Iff.rfl) h, ?_⟩
    exact travAux_count g _ target (fuelBound g) [start] [] [] p c h
  · intro h
    refine ⟨travAux_nodup g _ target (fuelBound g) [start] [] [] q e
      List.nodup_nil (fun x => Iff.rfl) h, ?_⟩
    exact travAux_count g _ target (fuelBound g) [start] [] [] q e h

/-- C10 witness: the concrete exhaustive runs on the reference network. -/
theorem dfs_bfs_nodup_count_witness :
    ((["solar1", "sub1", "hydro1", "sub2", "wind1", "city2", "factory1", "city1"]
        : List String).Nodup ∧
      8 = (["solar1", "sub1", "hydro1", "sub2", "wind1", "city2", "factory1", "city1"]
        : List String).length) ∧
    ((["solar1", "sub1", "hydro1", "city1", "city2", "sub2", "wind1", "factory1"]
        : List String).Nodup ∧
      8 = (["solar1", "sub1", "hydro1", "city1", "city2", "sub2", "wind1", "factory1"]
        : List String).length) :=
  ⟨(dfs_bfs_nodup_count refNet "solar1" none
      ["solar1", "sub1", "hydro1", "sub2", "wind1", "city2", "factory1", "city1"]
      ["solar1", "sub1", "hydro1", "city1", "city2", "sub2", "wind1", "factory1"]
      8 8).1 rfl,
   (dfs_bfs_nodup_count refNet "solar1" none
      ["solar1", "sub1", "hydro1", "sub2", "wind1", "city2", "factory1", "city1"]
      ["solar1", "sub1", "hydro1", "city1", "city2", "sub2", "wind1", "factory1"]
      8 8).2 rfl⟩

/-! ### Connectivity -/

/-- C8: the connectivity check on a network with zero nodes returns true
(the check is a total function, so no error is raised). -/
theorem is_connected_empty (g : Net) (h : g.nodes = []) : is_connected g = true := by
  rw [is_connected, h]
  rfl

/-- C8 witness: the concrete empty network. -/
theorem is_connected_empty_witness : is_connected emptyNet = true :=
  is_connected_empty emptyNet rfl

/-! ### Simple-path enumeration is sound and complete -/

theorem spAux_sound (g : Net) (tgt : String) :
    ∀ (fuel : Nat) (cur : String) (seen : List String) (p : List String),
      cur ∉ seen → p ∈ spAux g tgt fuel cur seen →
      List.Chain' (fun a b => b ∈ g.adj a) p ∧ p.Nodup ∧
        p.head? = some cur ∧ p.getLast? = some tgt ∧ ∀ x ∈ p, x ∉ seen := by
  intro fuel
  induction fuel with
  | zero =>
    intro cur seen p hcur hp
    rw [spAux] at hp
    by_cases h : cur = tgt
    · rw [if_pos h] at hp
      simp only [List.mem_singleton] at hp
      subst hp
      subst h
      exact ⟨by simp, by simp, rfl, rfl, by simpa using hcur⟩
    · rw [if_neg h] at hp
      exact absurd hp (List.not_mem_nil p)
  | succ fuel ih =>
    intro cur seen p hcur hp
    rw [spAux] at hp
    by_cases h : cur = tgt
    · rw [if_pos h] at hp
      simp only [List.mem_singleton] at hp
      subst hp
      subst h
      exact ⟨by simp, by simp, rfl, rfl, by simpa using hcur⟩
    · rw [if_neg h] at hp
      simp only [List.mem_flatMap, List.mem_map, List.mem_filter] at hp
      obtain ⟨nb, ⟨hnbadj, hnbseen⟩, q, hq, rfl⟩ := hp
      have hnb : nb ∉ cur :: seen := by simpa using hnbseen
      obtain ⟨hchain, hnodup, hhead, hlast, hdisj⟩ := ih nb (cur :: seen) q hnb hq
      have hqne : q ≠ [] := by
        intro hq0; rw [hq0] at hhead; exact absurd hhead (by simp)
      refine ⟨?_, ?_, ?_, ?_, ?_⟩
      · cases q with
        | nil => exact absurd rfl hqne
        | cons b q' =>
          have hb : b = nb := by simpa using hhead
          exact List.Chain'.cons (hb ▸ hnbadj) hchain
      · rw [List.nodup_cons]
        refine ⟨fun hc => ?_, hnodup⟩
        exact (hdisj cur hc) (List.mem_cons_self cur seen)
      · simp
      · cases q with
        | nil => exact absurd rfl hqne
        | cons b q' => exact hlast
      · intro x hx
        rcases List.mem_cons.mp hx with rfl | hx'
        · exact hcur
        · exact fun hxs => (hdisj x hx') (List.mem_cons_of_mem cur hxs)

theorem spAux_at_tgt (g : Net) (tgt : String) (fuel : Nat) (seen : List String) :
    spAux g tgt fuel tgt seen = [[tgt]] := by
  cases fuel <;> rw [spAux] <;> rw [if_pos rfl]

theorem spAux_step (g : Net) (tgt : String) (fuel : Nat) (cur : String)
    (seen : List String) (h : cur ≠ tgt) :
    spAux g tgt (fuel + 1) cur seen
      = ((g.adj cur).filter (fun b => decide (b ∉ cur :: seen))).flatMap
          (fun nb => (spAux g tgt fuel nb (cur :: seen)).map (fun q => cur :: q)) := by
  rw [spAux, if_neg h]

theorem spAux_complete (g : Net) (tgt : String) :
    ∀ (p : List String) (fuel : Nat) (cur : String) (seen : List String),
      List.Chain' (fun a b => b ∈ g.adj a) p → p.Nodup →
      p.head? = some cur → p.getLast? = some tgt →
      (∀ x ∈ p, x ∉ seen) → p.length ≤ fuel + 1 →
      p ∈ spAux g tgt fuel cur seen := by
  intro p
  induction p with
  | nil => intro fuel cur seen _ _ hhead _ _ _; exact absurd hhead (by simp)
  | cons a rest ih =>
    intro fuel cur seen hchain hnodup hhead hlast hdisj hlen
    have ha : a = cur := by simpa using hhead
    subst ha
    by_cases h : a = tgt
    · subst h
      have hrest : rest = [] := by
        cases rest with
        | nil => rfl
        | cons b q =>
          exfalso
          have hl2 : (b :: q).getLast? = some a := hlast
          exact (List.nodup_cons.mp hnodup).1 (List.mem_of_mem_getLast? hl2)
      rw [spAux_at_tgt, hrest]
      simp
    · cases rest with
      | nil =>
        exfalso
        exact h (by simpa using hlast)
      | cons nb rest' =>
        obtain ⟨f, rfl⟩ : ∃ f, fuel = f + 1 := by
          refine ⟨fuel - 1, ?_⟩
          simp only [List.length_cons] at hlen
          omega
        rw [spAux_step g tgt f a seen h]
        simp only [List.mem_flatMap, List.mem_map, List.mem_filter]
        have hadj : nb ∈ g.adj a := (List.chain'_cons.mp hchain).1
        have hnbne : nb ∉ a :: seen := by
          intro hc
          rcases List.mem_cons.mp hc with heq | hc'
          · exact (List.nodup_cons.mp hnodup).1 (heq ▸ List.mem_cons_self nb rest')
          · exact (hdisj nb (List.mem_cons_of_mem a (List.mem_cons_self nb rest'))) hc'
        refine ⟨nb, ⟨hadj, by simpa using hnbne⟩, nb :: rest', ?_, rfl⟩
        apply ih f nb (a :: seen) (List.chain'_cons.mp hchain).2
          (List.nodup_cons.mp hnodup).2 rfl hlast
        · intro x hx
          intro hc
          rcases List.mem_cons.mp hc with heq | hc'
          · exact (List.nodup_cons.mp hnodup).1 (heq ▸ hx)
          · exact (hdisj x (List.mem_cons_of_mem a hx)) hc'
        · simp only [List.length_cons] at hlen ⊢
          omega

theorem path_nodes (g : Net) :
    ∀ (p : List String), List.Chain' (fun a b => b ∈ g.adj a) p →
      ∀ a, p.head? = some a → a ∈ g.nodes → ∀ x ∈ p, x ∈ g.nodes := by
  intro p
  induction p with
  | nil => intro _ a _ _ x hx; exact absurd hx (List.not_mem_nil x)
  | cons a rest ih =>
    intro hchain a0 hhead ha0 x hx
    have ha : a = a0 := by simpa using hhead
    subst ha
    rcases List.mem_cons.mp hx with rfl | hx'
    · exact ha0
    · cases rest with
      | nil => exact absurd hx' (List.not_mem_nil x)
      | cons b t =>
        refine ih (List.chain'_cons.mp hchain).2 b rfl ?_ x hx'
        exact g.adj_mem a ha0 b (List.chain'_cons.mp hchain).1

/-- The enumeration `simplePaths` lists exactly the simple paths: chains of
adjacent nodes without repetition from `src` to `tgt`. -/
theorem simplePaths_iff (g : Net) (src tgt : String) (hsrc : src ∈ g.nodes)
    (p : List String) :
    p ∈ simplePaths g src tgt ↔
      List.Chain' (fun a b => b ∈ g.adj a) p ∧ p.Nodup ∧
        p.head? = some src ∧ p.getLast? = some tgt := by
  constructor
  · intro hp
    have h := spAux_sound g tgt g.nodes.length src [] p (by simp) hp
    exact ⟨h.1, h.2.1, h.2.2.1, h.2.2.2.1⟩
  · rintro ⟨hc, hn, hh, hl⟩
    apply spAux_complete g tgt p g.nodes.length src [] hc hn hh hl
      (fun x _ hx => absurd hx (List.not_mem_nil x))
    have hsub : ∀ x ∈ p, x ∈ g.nodes := path_nodes g p hc src hh hsrc
    have hle := (hn.subperm (fun {x} hx => hsub x hx)).length_le
    omega

/-- C3: on the reference network, any return value satisfying the
shortest-path contract from `hydro1` to `city2` (weight = distance) is
exactly the path `[hydro1, sub2, city2]` with total weight `2.9 = 1.8 + 1.1`,
and that path does satisfy the contract. -/
theorem shortest_path_hydro1_city2 :
    IsShortestPathTo refNet refDist "hydro1" "city2"
      ["hydro1", "sub2", "city2"] (29/10) ∧
    ∀ p w, IsShortestPathTo refNet refDist "hydro1" "city2" p w →
      p = ["hydro1", "sub2", "city2"] ∧ w = 29/10 := by
  have henum : simplePaths refNet "hydro1" "city2" =
      [["hydro1", "sub1", "city2"], ["hydro1", "sub1", "sub2", "city2"],
       ["hydro1", "sub2", "city2"], ["hydro1", "sub2", "sub1", "city2"]] := rfl
  have h1 : pathWeight refDist ["hydro1", "sub1", "city2"] = 45/10 := by
    simp +decide only [pathWeight, refDist, refEdges, edgeDist]
    norm_num
  have h2 : pathWeight refDist ["hydro1", "sub1", "sub2", "city2"] = 51/10 := by
    simp +decide only [pathWeight, refDist, refEdges, edgeDist]
    norm_num
  have h3 : pathWeight refDist ["hydro1", "sub2", "city2"] = 29/10 := by
    simp +decide only [pathWeight, refDist, refEdges, edgeDist]
    norm_num
  have h4 : pathWeight refDist ["hydro1", "sub2", "sub1", "city2"] = 63/10 := by
    simp +decide only [pathWeight, refDist, refEdges, edgeDist]
    norm_num
  constructor
  · refine ⟨by rw [henum]; simp, h3, ?_⟩
    intro q hq
    rw [henum] at hq
    simp only [List.mem_cons, List.mem_singleton] at hq
    rcases hq with rfl | rfl | rfl | rfl | h0
    · rw [h1]; norm_num
    · rw [h2]; norm_num
    · rw [h3]
    · rw [h4]; norm_num
    · exact absurd h0 (List.not_mem_nil q)
  · rintro p w ⟨hp, hw, hmin⟩
    have hle : w ≤ 29/10 := by
      have := hmin ["hydro1", "sub2", "city2"] (by rw [henum]; simp)
      rw [h3] at this
      exact this
    rw [henum] at hp
    simp only [List.mem_cons, List.mem_singleton] at hp
    rcases hp with rfl | rfl | rfl | rfl | h0
    · rw [h1] at hw; exfalso; rw [← hw] at hle; norm_num at hle
    · rw [h2] at hw; exfalso; rw [← hw] at hle; norm_num at hle
    · exact ⟨rfl, by rw [← hw, h3]⟩
    · rw [h4] at hw; exfalso; rw [← hw] at hle; norm_num at hle
    · exact absurd h0 (List.not_mem_nil p)

/-- C3 witness: instantiating the uniqueness part at the shortest path
itself. -/
theorem shortest_path_hydro1_city2_witness :
    (["hydro1", "sub2", "city2"] : List String) = ["hydro1", "sub2", "city2"] ∧
      (29/10 : ℚ) = 29/10 :=
  shortest_path_hydro1_city2.2 ["hydro1", "sub2", "city2"] (29/10)
    shortest_path_hydro1_city2.1

/-! ### Greedy solver: loop characterization -/

theorem gplan_nonpos (l : List GenSource) (d : ℚ) (hd : d ≤ 0) : gplan l d = [] := by
  cases l with
  | nil => rfl
  | cons s rest => rw [gplan, if_pos hd]

theorem gcost_nonpos (l : List GenSource) (d : ℚ) (hd : d ≤ 0) : gcost l d = 0 := by
  cases l with
  | nil => rfl
  | cons s rest => rw [gcost, if_pos hd]

theorem ggen_nonpos (l : List GenSource) (d : ℚ) (hd : d ≤ 0) : ggen l d = 0 := by
  cases l with
  | nil => rfl
  | cons s rest => rw [ggen, if_pos hd]

theorem greedyLoop_eq (demand : ℚ) :
    ∀ (l : List GenSource) (gen cost : ℚ) (plan : List (String × ℚ)),
      greedyLoop demand l gen cost plan
        = (plan ++ gplan l (demand - gen), cost + gcost l (demand - gen),
           gen + ggen l (demand - gen)) := by
  intro l
  induction l with
  | nil => intro gen cost plan; simp [greedyLoop, gplan, gcost, ggen]
  | cons s rest ih =>
    intro gen cost plan
    simp only [greedyLoop, gplan, gcost, ggen]
    by_cases h1 : demand ≤ gen
    · have h1' : demand - gen ≤ 0 := by linarith
      rw [if_pos h1, if_pos h1', if_pos h1', if_pos h1']
      simp
    · have h1' : ¬ demand - gen ≤ 0 := by
        intro hc; exact h1 (by linarith)
      rw [if_neg h1, if_neg h1', if_neg h1', if_neg h1']
      by_cases h2 : 0 < min (demand - gen) s.capacity
      · rw [if_pos h2, if_pos h2, if_pos h2, if_pos h2]
        rw [ih (gen + min (demand - gen) s.capacity) (cost + min (demand - gen) s.capacity * s.cost_per_mw)
          (plan ++ [(s.id, min (demand - gen) s.capacity)])]
        have harg : demand - (gen + min (demand - gen) s.capacity)
            = demand - gen - min (demand - gen) s.capacity := by ring
        rw [harg]
        refine Prod.ext ?_ (Prod.ext ?_ ?_)
        · simp
        · show cost + min (demand - gen) s.capacity * s.cost_per_mw
            + gcost rest (demand - gen - min (demand - gen) s.capacity)
            = cost + (min (demand - gen) s.capacity * s.cost_per_mw
              + gcost rest (demand - gen - min (demand - gen) s.capacity))
          ring
        · show gen + min (demand - gen) s.capacity
            + ggen rest (demand - gen - min (demand - gen) s.capacity)
            = gen + (min (demand - gen) s.capacity
              + ggen rest (demand - gen - min (demand - gen) s.capacity))
          ring
      · rw [if_neg h2, if_neg h2, if_neg h2, if_neg h2]
        exact ih gen cost plan

/-- The solver in state-free form over the sorted source list. -/
theorem optimize_eq (sources : List GenSource) (demand : ℚ) :
    optimize_generation sources demand
      = (gplan (sources.mergeSort (fun a b => decide (effCost a ≤ effCost b))) demand,
         gcost (sources.mergeSort (fun a b => decide (effCost a ≤ effCost b))) demand,
         ggen (sources.mergeSort (fun a b => decide (effCost a ≤ effCost b))) demand) := by
  rw [optimize_generation, greedyLoop_eq]
  simp

/-! ### Greedy solver: demand above total capacity (C6) -/

theorem sum_caps_nonneg (l : List GenSource) (hcap : ∀ s ∈ l, 0 ≤ s.capacity) :
    0 ≤ (l.map (fun s => s.capacity)).sum := by
  apply List.sum_nonneg
  intro x hx
  obtain ⟨s, hs, rfl⟩ := List.mem_map.mp hx
  exact hcap s hs

theorem ggen_over (l : List GenSource) (hcap : ∀ s ∈ l, 0 ≤ s.capacity) :
    ∀ d : ℚ, (l.map (fun s => s.capacity)).sum < d →
      ggen l d = (l.map (fun s => s.capacity)).sum := by
  induction l with
  | nil => intro d _; rfl
  | cons s rest ih =>
    intro d hd
    simp only [List.map_cons, List.sum_cons] at hd ⊢
    have hs0 : 0 ≤ s.capacity := hcap s (List.mem_cons_self s rest)
    have hS : 0 ≤ (rest.map (fun s => s.capacity)).sum :=
      sum_caps_nonneg rest (fun t ht => hcap t (List.mem_cons_of_mem s ht))
    have hd0 : ¬ d ≤ 0 := by intro hc; linarith
    rw [ggen, if_neg hd0]
    have hmin : min d s.capacity = s.capacity := min_eq_right (by linarith)
    rw [hmin]
    by_cases h2 : 0 < s.capacity
    · rw [if_pos h2, ih (fun t ht => hcap t (List.mem_cons_of_mem s ht))
        (d - s.capacity) (by linarith)]
    · have hs00 : s.capacity = 0 := le_antisymm (not_lt.mp h2) hs0
      rw [if_neg h2, ih (fun t ht => hcap t (List.mem_cons_of_mem s ht)) d (by linarith),
        hs00]
      ring

theorem gplan_over (l : List GenSource) (hcap : ∀ s ∈ l, 0 ≤ s.capacity) :
    ∀ d : ℚ, (l.map (fun s => s.capacity)).sum < d →
      gplan l d = (l.filter (fun s => decide (0 < s.capacity))).map
        (fun s => (s.id, s.capacity)) := by
  induction l with
  | nil => intro d _; rfl
  | cons s rest ih =>
    intro d hd
    simp only [List.map_cons, List.sum_cons] at hd
    have hs0 : 0 ≤ s.capacity := hcap s (List.mem_cons_self s rest)
    have hS : 0 ≤ (rest.map (fun s => s.capacity)).sum :=
      sum_caps_nonneg rest (fun t ht => hcap t (List.mem_cons_of_mem s ht))
    have hd0 : ¬ d ≤ 0 := by intro hc; linarith
    rw [gplan, if_neg hd0]
    have hmin : min d s.capacity = s.capacity := min_eq_right (by linarith)
    rw [hmin, List.filter_cons]
    by_cases h2 : 0 < s.capacity
    · rw [if_pos h2, if_pos (by simpa using h2), List.map_cons,
        ih (fun t ht => hcap t (List.mem_cons_of_mem s ht)) (d - s.capacity) (by linarith)]
    · have hs00 : s.capacity = 0 := le_antisymm (not_lt.mp h2) hs0
      rw [if_neg h2, if_neg (by simpa using h2),
        ih (fun t ht => hcap t (List.mem_cons_of_mem s ht)) d (by linarith)]

/-- C6: when demand strictly exceeds the total capacity, the solver
allocates every positive-capacity source in full (in cost-effectiveness
order), generates exactly the total capacity, and the reported shortfall is
demand minus total capacity.  The solver is a total function, so no error
is raised. -/
theorem optimize_generation_over (sources : List GenSource) (demand : ℚ)
    (hcap : ∀ s ∈ sources, 0 ≤ s.capacity)
    (hd : (sources.map (fun s => s.capacity)).sum < demand) :
    (optimize_generation sources demand).2.2
        = (sources.map (fun s => s.capacity)).sum ∧
    (optimize_generation sources demand).1
        = ((sources.mergeSort (fun a b => decide (effCost a ≤ effCost b))).filter
            (fun s => decide (0 < s.capacity))).map (fun s => (s.id, s.capacity)) ∧
    demand - (optimize_generation sources demand).2.2
        = demand - (sources.map (fun s => s.capacity)).sum := by
  have hperm : (sources.mergeSort (fun a b => decide (effCost a ≤ effCost b))).Perm
      sources := List.mergeSort_perm sources _
  have hcap' : ∀ s ∈ sources.mergeSort (fun a b => decide (effCost a ≤ effCost b)),
      0 ≤ s.capacity := fun s hs => hcap s (hperm.mem_iff.mp hs)
  have hsum : ((sources.mergeSort (fun a b => decide (effCost a ≤ effCost b))).map
      (fun s => s.capacity)).sum = (sources.map (fun s => s.capacity)).sum :=
    (hperm.map (fun s => s.capacity)).sum_eq
  rw [optimize_eq]
  refine ⟨?_, ?_, ?_⟩
  · show ggen _ demand = _
    rw [ggen_over _ hcap' demand (by rw [hsum]; exact hd), hsum]
  · exact gplan_over _ hcap' demand (by rw [hsum]; exact hd)
  · show demand - ggen _ demand = _
    rw [ggen_over _ hcap' demand (by rw [hsum]; exact hd), hsum]

/-! ### Greedy solver: optimality machinery (C1) -/

theorem pairCost_nonneg (pl : List (GenSource × ℚ))
    (hbd : ∀ pa ∈ pl, 0 ≤ pa.2) (hcost : ∀ pa ∈ pl, 0 ≤ pa.1.cost_per_mw) :
    0 ≤ pairCost pl := by
  apply List.sum_nonneg
  intro x hx
  obtain ⟨pa, hpa, rfl⟩ := List.mem_map.mp hx
  exact mul_nonneg (hbd pa hpa) (hcost pa hpa)

theorem snd_sum_le_caps (pl : List (GenSource × ℚ))
    (hbd : ∀ pa ∈ pl, pa.2 ≤ pa.1.capacity) :
    (pl.map Prod.snd).sum ≤ (pl.map (fun pa => pa.1.capacity)).sum := by
  induction pl with
  | nil => simp
  | cons pa pt ih =>
    simp only [List.map_cons, List.sum_cons]
    have h1 := hbd pa (List.mem_cons_self pa pt)
    have h2 := ih (fun pb hpb => hbd pb (List.mem_cons_of_mem pa hpb))
    linarith

theorem gcost_pos (s : GenSource) (rest : List GenSource) (d : ℚ) (hd : ¬ d ≤ 0) :
    gcost (s :: rest) d
      = if 0 < min d s.capacity
        then min d s.capacity * s.cost_per_mw + gcost rest (d - min d s.capacity)
        else gcost rest d := by
  rw [gcost, if_neg hd]

theorem gcost_lb (c : ℚ) :
    ∀ (l : List GenSource), (∀ s ∈ l, c ≤ s.cost_per_mw) → (∀ s ∈ l, 0 ≤ s.capacity) →
      ∀ (y x : ℚ), 0 ≤ y → y ≤ x → x ≤ (l.map (fun s => s.capacity)).sum →
        gcost l y + (x - y) * c ≤ gcost l x := by
  intro l
  induction l with
  | nil =>
    intro _ _ y x hy hyx hx
    simp only [List.map_nil, List.sum_nil] at hx
    have hx0 : x = 0 := le_antisymm hx (le_trans hy hyx)
    subst hx0
    have hy0 : y = 0 := le_antisymm hyx hy
    subst hy0
    simp [gcost]
  | cons s rest ih =>
    intro hcost hcap y x hy hyx hx
    simp only [List.map_cons, List.sum_cons] at hx
    have hcost' := fun t ht => hcost t (List.mem_cons_of_mem s ht)
    have hcap' := fun t ht => hcap t (List.mem_cons_of_mem s ht)
    have hs0 : 0 ≤ s.capacity := hcap s (List.mem_cons_self s rest)
    have hc0 : c ≤ s.cost_per_mw := hcost s (List.mem_cons_self s rest)
    have hS : 0 ≤ (rest.map (fun s => s.capacity)).sum := sum_caps_nonneg rest hcap'
    by_cases hx0 : x ≤ 0
    · have hx' : x = 0 := le_antisymm hx0 (le_trans hy hyx)
      subst hx'
      have hy' : y = 0 := le_antisymm hyx hy
      subst hy'
      rw [gcost_nonpos _ _ le_rfl]
      simp
    · rw [gcost_pos s rest x hx0]
      by_cases hy0 : y ≤ 0
      · rw [gcost_nonpos _ _ hy0]
        have hy' : y = 0 := le_antisymm hy0 hy
        subst hy'
        by_cases h2 : 0 < min x s.capacity
        · rw [if_pos h2]
          have hminx : min x s.capacity ≤ x := min_le_left x s.capacity
          have hxx : x - min x s.capacity ≤ (rest.map (fun s => s.capacity)).sum := by
            rcases le_total x s.capacity with h | h
            · rw [min_eq_left h]; linarith
            · rw [min_eq_right h]; linarith
          have hstep := ih hcost' hcap' 0 (x - min x s.capacity) le_rfl
            (by linarith) hxx
          rw [gcost_nonpos rest 0 le_rfl] at hstep
          have hmlec : min x s.capacity * c ≤ min x s.capacity * s.cost_per_mw :=
            mul_le_mul_of_nonneg_left hc0 (le_of_lt h2)
          have hid : (x - 0) * c
              = min x s.capacity * c + (x - min x s.capacity - 0) * c := by ring
          linarith
        · rw [if_neg h2]
          have hcap0 : s.capacity = 0 := by
            rcases le_total x s.capacity with h | h
            · rw [min_eq_left h] at h2; linarith [not_lt.mp h2]
            · rw [min_eq_right h] at h2; exact le_antisymm (not_lt.mp h2) hs0
          have hstep := ih hcost' hcap' 0 x le_rfl (le_of_lt (not_le.mp hx0))
            (by rw [hcap0] at hx; linarith)
          rw [gcost_nonpos rest 0 le_rfl] at hstep
          linarith
      · rw [gcost_pos s rest y hy0]
        by_cases hcappos : 0 < s.capacity
        · have h2y : 0 < min y s.capacity := lt_min (not_le.mp hy0) hcappos
          have h2x : 0 < min x s.capacity := lt_min (not_le.mp hx0) hcappos
          rw [if_pos h2y, if_pos h2x]
          have hyy : 0 ≤ y - min y s.capacity := by
            have := min_le_left y s.capacity
            linarith
          have hmono : min y s.capacity ≤ min x s.capacity := min_le_min hyx le_rfl
          have hlip : min x s.capacity - min y s.capacity ≤ x - y := by
            rcases le_total x s.capacity with h | h
            · rcases le_total y s.capacity with h2 | h2
              · rw [min_eq_left h, min_eq_left h2]
              · rw [min_eq_left h, min_eq_right h2]; linarith
            · rcases le_total y s.capacity with h2 | h2
              · rw [min_eq_right h, min_eq_left h2]; linarith
              · rw [min_eq_right h, min_eq_right h2]; linarith
          have hxx : x - min x s.capacity ≤ (rest.map (fun s => s.capacity)).sum := by
            rcases le_total x s.capacity with h | h
            · rw [min_eq_left h]; linarith
            · rw [min_eq_right h]; linarith
          have hstep := ih hcost' hcap' (y - min y s.capacity) (x - min x s.capacity)
            hyy (by linarith) hxx
          have hmc : (min x s.capacity - min y s.capacity) * c
              ≤ (min x s.capacity - min y s.capacity) * s.cost_per_mw :=
            mul_le_mul_of_nonneg_left hc0 (by linarith)
          have hid : (x - y) * c
              = ((x - min x s.capacity) - (y - min y s.capacity)) * c
                + (min x s.capacity - min y s.capacity) * c := by ring
          have hid2 : min y s.capacity * s.cost_per_mw
              + (min x s.capacity - min y s.capacity) * s.cost_per_mw
              = min x s.capacity * s.cost_per_mw := by ring
          linarith
        · have hcap0 : s.capacity = 0 := le_antisymm (not_lt.mp hcappos) hs0
          have h2y : ¬ 0 < min y s.capacity := by
            rw [hcap0, min_eq_right hy]
            exact lt_irrefl 0
          have h2x : ¬ 0 < min x s.capacity := by
            rw [hcap0, min_eq_right (le_trans hy hyx)]
            exact lt_irrefl 0
          rw [if_neg h2y, if_neg h2x]
          exact ih hcost' hcap' y x hy hyx (by rw [hcap0] at hx; linarith)

/-- Greedy over a cost-sorted source list is no more expensive than any
feasible allocation. -/
theorem gcost_le_pairCost :
    ∀ (l : List GenSource),
      l.Pairwise (fun a b => a.cost_per_mw ≤ b.cost_per_mw) →
      (∀ s ∈ l, 0 ≤ s.capacity) → (∀ s ∈ l, 0 ≤ s.cost_per_mw) →
      ∀ (d : ℚ) (pl : List (GenSource × ℚ)), pl.map Prod.fst = l →
        (∀ pa ∈ pl, 0 ≤ pa.2 ∧ pa.2 ≤ pa.1.capacity) →
        d ≤ (pl.map Prod.snd).sum →
        gcost l d ≤ pairCost pl := by
  intro l
  induction l with
  | nil =>
    intro _ _ _ d pl hfst _ hmeets
    have hpl : pl = [] := List.map_eq_nil_iff.mp hfst
    subst hpl
    simp [gcost, pairCost]
  | cons s rest ih =>
    intro hsort hcap hcost d pl hfst hbd hmeets
    cases pl with
    | nil => exact absurd hfst (by simp)
    | cons pa pl' =>
      simp only [List.map_cons, List.cons.injEq] at hfst
      obtain ⟨hpa1, hfst'⟩ := hfst
      have hsort' := (List.pairwise_cons.mp hsort).2
      have hhead := (List.pairwise_cons.mp hsort).1
      have hcap' := fun t ht => hcap t (List.mem_cons_of_mem s ht)
      have hcost' := fun t ht => hcost t (List.mem_cons_of_mem s ht)
      have hbd' := fun pb hpb => hbd pb (List.mem_cons_of_mem pa hpb)
      have hbd0 := hbd pa (List.mem_cons_self pa pl')
      have ha0 : 0 ≤ pa.2 := hbd0.1
      have hacap : pa.2 ≤ s.capacity := hpa1 ▸ hbd0.2
      have hs0 : 0 ≤ s.capacity := hcap s (List.mem_cons_self s rest)
      have hc00 : 0 ≤ s.cost_per_mw := hcost s (List.mem_cons_self s rest)
      have hplcost : ∀ pb ∈ pl', 0 ≤ pb.1.cost_per_mw := by
        intro pb hpb
        have : pb.1 ∈ rest := hfst' ▸ List.mem_map_of_mem Prod.fst hpb
        exact hcost' pb.1 this
      have hpaircost : pairCost (pa :: pl') = pa.2 * s.cost_per_mw + pairCost pl' := by
        rw [pairCost, List.map_cons, List.sum_cons, hpa1, pairCost]
      simp only [List.map_cons, List.sum_cons] at hmeets
      by_cases hd0 : d ≤ 0
      · rw [gcost_nonpos _ _ hd0]
        rw [hpaircost]
        have h1 : 0 ≤ pairCost pl' :=
          pairCost_nonneg pl' (fun pb hpb => (hbd' pb hpb).1) hplcost
        have h2 : 0 ≤ pa.2 * s.cost_per_mw := mul_nonneg ha0 hc00
        linarith
      · rw [gcost_pos s rest d hd0, hpaircost]
        by_cases h2 : 0 < min d s.capacity
        · rw [if_pos h2]
          by_cases hgt : min d s.capacity < pa.2
          · -- the allocation exceeds the greedy amount: greedy took all of d
            have hneed : min d s.capacity = d := by
              rcases le_total d s.capacity with h | h
              · exact min_eq_left h
              · exfalso
                rw [min_eq_right h] at hgt
                linarith
            rw [hneed]
            have h1 : 0 ≤ pairCost pl' :=
              pairCost_nonneg pl' (fun pb hpb => (hbd' pb hpb).1) hplcost
            have h3 : d * s.cost_per_mw ≤ pa.2 * s.cost_per_mw := by
              apply mul_le_mul_of_nonneg_right _ hc00
              rw [← hneed]
              exact le_of_lt hgt
            have h4 : gcost rest (d - d) = 0 := gcost_nonpos rest _ (by linarith)
            rw [sub_self, gcost_nonpos rest 0 le_rfl]
            linarith
          · -- the allocation is at most the greedy amount
            have hle : pa.2 ≤ min d s.capacity := not_lt.mp hgt
            have hmeets' : d - pa.2 ≤ (pl'.map Prod.snd).sum := by linarith
            have hstep := ih hsort' hcap' hcost' (d - pa.2) pl' hfst' hbd' hmeets'
            have hcosts_rest : ∀ t ∈ rest, s.cost_per_mw ≤ t.cost_per_mw := hhead
            have hx : d - pa.2 ≤ (rest.map (fun t => t.capacity)).sum := by
              have hsum1 : (pl'.map Prod.snd).sum
                  ≤ (pl'.map (fun pb => pb.1.capacity)).sum :=
                snd_sum_le_caps pl' (fun pb hpb => (hbd' pb hpb).2)
              have hsum2 : (pl'.map (fun pb => pb.1.capacity)).sum
                  = (rest.map (fun t => t.capacity)).sum := by
                rw [← hfst', List.map_map]
                rfl
              linarith
            have hlb := gcost_lb s.cost_per_mw rest hcosts_rest hcap'
              (d - min d s.capacity) (d - pa.2)
              (by have := min_le_left d s.capacity; linarith)
              (by linarith) hx
            have hid : (d - pa.2 - (d - min d s.capacity)) * s.cost_per_mw
                = min d s.capacity * s.cost_per_mw - pa.2 * s.cost_per_mw := by
              ring
            linarith
        · -- the head has zero capacity, so the allocation there is zero
          rw [if_neg h2]
          have hcap0 : s.capacity = 0 := by
            rcases le_total d s.capacity with h | h
            · rw [min_eq_left h] at h2; exfalso; exact h2 (not_le.mp hd0)
            · rw [min_eq_right h] at h2; exact le_antisymm (not_lt.mp h2) hs0
          have ha00 : pa.2 = 0 := le_antisymm (hcap0 ▸ hacap) ha0
          have hmeets' : d ≤ (pl'.map Prod.snd).sum := by
            rw [ha00] at hmeets; linarith
          have hstep := ih hsort' hcap' hcost' d pl' hfst' hbd' hmeets'
          have : pa.2 * s.cost_per_mw = 0 := by rw [ha00]; ring
          linarith

theorem gvec_length (l : List GenSource) : ∀ d, (gvec l d).length = l.length := by
  induction l with
  | nil => intro d; rfl
  | cons s rest ih =>
    intro d
    rw [gvec]
    by_cases h1 : d ≤ 0
    · rw [if_pos h1]; simp [ih]
    · rw [if_neg h1]
      by_cases h2 : 0 < min d s.capacity
      · rw [if_pos h2]; simp [ih]
      · rw [if_neg h2]; simp [ih]

theorem gvec_nonneg (l : List GenSource) : ∀ d, ∀ a ∈ gvec l d, 0 ≤ a := by
  induction l with
  | nil => intro d a ha; exact absurd ha (List.not_mem_nil a)
  | cons s rest ih =>
    intro d a ha
    rw [gvec] at ha
    by_cases h1 : d ≤ 0
    · rw [if_pos h1] at ha
      rcases List.mem_cons.mp ha with rfl | ha'
      · exact le_rfl
      · exact ih d a ha'
    · rw [if_neg h1] at ha
      by_cases h2 : 0 < min d s.capacity
      · rw [if_pos h2] at ha
        rcases List.mem_cons.mp ha with rfl | ha'
        · exact le_of_lt h2
        · exact ih _ a ha'
      · rw [if_neg h2] at ha
        rcases List.mem_cons.mp ha with rfl | ha'
        · exact le_rfl
        · exact ih d a ha'

theorem gvec_bounds (l : List GenSource) (hcap : ∀ s ∈ l, 0 ≤ s.capacity) :
    ∀ d, ∀ pa ∈ l.zip (gvec l d), 0 ≤ pa.2 ∧ pa.2 ≤ pa.1.capacity := by
  induction l with
  | nil => intro d pa hpa; exact absurd hpa (List.not_mem_nil pa)
  | cons s rest ih =>
    intro d pa hpa
    have hcap' := fun t ht => hcap t (List.mem_cons_of_mem s ht)
    have hs0 : 0 ≤ s.capacity := hcap s (List.mem_cons_self s rest)
    rw [gvec] at hpa
    by_cases h1 : d ≤ 0
    · rw [if_pos h1] at hpa
      rcases List.mem_cons.mp hpa with rfl | hpa'
      · exact ⟨le_rfl, hs0⟩
      · exact ih hcap' d pa hpa'
    · rw [if_neg h1] at hpa
      by_cases h2 : 0 < min d s.capacity
      · rw [if_pos h2] at hpa
        rcases List.mem_cons.mp hpa with rfl | hpa'
        · exact ⟨le_of_lt h2, min_le_right d s.capacity⟩
        · exact ih hcap' _ pa hpa'
      · rw [if_neg h2] at hpa
        rcases List.mem_cons.mp hpa with rfl | hpa'
        · exact ⟨le_rfl, hs0⟩
        · exact ih hcap' d pa hpa'

theorem gvec_sum_ge (l : List GenSource) (hcap : ∀ s ∈ l, 0 ≤ s.capacity) :
    ∀ d, d ≤ (l.map (fun s => s.capacity)).sum → d ≤ (gvec l d).sum := by
  induction l with
  | nil => intro d hd; simpa using hd
  | cons s rest ih =>
    intro d hd
    have hcap' := fun t ht => hcap t (List.mem_cons_of_mem s ht)
    have hs0 : 0 ≤ s.capacity := hcap s (List.mem_cons_self s rest)
    have hS : 0 ≤ (rest.map (fun s => s.capacity)).sum := sum_caps_nonneg rest hcap'
    simp only [List.map_cons, List.sum_cons] at hd
    rw [gvec]
    by_cases h1 : d ≤ 0
    · rw [if_pos h1]
      have hpos : 0 ≤ (gvec rest d).sum :=
        List.sum_nonneg (fun a ha => gvec_nonneg rest d a ha)
      simp only [List.sum_cons]
      linarith
    · rw [if_neg h1]
      by_cases h2 : 0 < min d s.capacity
      · rw [if_pos h2]
        simp only [List.sum_cons]
        have hrec : d - min d s.capacity ≤ (rest.map (fun s => s.capacity)).sum := by
          rcases le_total d s.capacity with h | h
          · rw [min_eq_left h]; linarith
          · rw [min_eq_right h]; linarith
        have := ih hcap' (d - min d s.capacity) hrec
        linarith
      · rw [if_neg h2]
        have hcap0 : s.capacity = 0 := by
          rcases le_total d s.capacity with h | h
          · rw [min_eq_left h] at h2; exfalso; exact h2 (not_le.mp h1)
          · rw [min_eq_right h] at h2; exact le_antisymm (not_lt.mp h2) hs0
        simp only [List.sum_cons]
        have := ih hcap' d (by rw [hcap0] at hd; linarith)
        linarith

theorem gvec_cost (l : List GenSource) :
    ∀ d, pairCost (l.zip (gvec l d)) = gcost l d := by
  induction l with
  | nil => intro d; rfl
  | cons s rest ih =>
    intro d
    rw [gvec, gcost]
    by_cases h1 : d ≤ 0
    · rw [if_pos h1, if_pos h1]
      rw [show (s :: rest).zip (0 :: gvec rest d) = (s, 0) :: rest.zip (gvec rest d)
        from rfl]
      rw [pairCost, List.map_cons, List.sum_cons]
      have := ih d
      rw [pairCost] at this
      rw [gcost_nonpos rest d h1] at this
      simp [this]
    · rw [if_neg h1, if_neg h1]
      by_cases h2 : 0 < min d s.capacity
      · rw [if_pos h2, if_pos h2]
        rw [show (s :: rest).zip (min d s.capacity :: gvec rest (d - min d s.capacity))
            = (s, min d s.capacity) :: rest.zip (gvec rest (d - min d s.capacity))
          from rfl]
        rw [pairCost, List.map_cons, List.sum_cons]
        have := ih (d - min d s.capacity)
        rw [pairCost] at this
        rw [this]
      · rw [if_neg h2, if_neg h2]
        rw [show (s :: rest).zip (0 :: gvec rest d) = (s, 0) :: rest.zip (gvec rest d)
          from rfl]
        rw [pairCost, List.map_cons, List.sum_cons]
        have := ih d
        rw [pairCost] at this
        simp [this]

theorem map_fst_perm_transfer :
    ∀ {l₁ l₂ : List GenSource}, l₁.Perm l₂ →
      ∀ (pl : List (GenSource × ℚ)), pl.map Prod.fst = l₁ →
        ∃ pl', pl.Perm pl' ∧ pl'.map Prod.fst = l₂ := by
  intro l₁ l₂ hperm
  induction hperm with
  | nil =>
    intro pl hpl
    exact ⟨pl, List.Perm.refl pl, hpl⟩
  | cons x hperm ih =>
    intro pl hpl
    cases pl with
    | nil => exact absurd hpl (by simp)
    | cons pa pt =>
      simp only [List.map_cons, List.cons.injEq] at hpl
      obtain ⟨hpa, hpt⟩ := hpl
      obtain ⟨pt', hptperm, hpt'⟩ := ih pt hpt
      exact ⟨pa :: pt', hptperm.cons pa, by simp [hpa, hpt']⟩
  | swap x y l =>
    intro pl hpl
    cases pl with
    | nil => exact absurd hpl (by simp)
    | cons pa pt =>
      cases pt with
      | nil => exact absurd hpl (by simp)
      | cons pb pt' =>
        simp only [List.map_cons, List.cons.injEq] at hpl
        obtain ⟨hpa, hpb, hpt'⟩ := hpl
        exact ⟨pb :: pa :: pt', List.Perm.swap pb pa pt', by simp [hpa, hpb, hpt']⟩
  | trans h1 h2 ih1 ih2 =>
    intro pl hpl
    obtain ⟨pl1, hperm1, hpl1⟩ := ih1 pl hpl
    obtain ⟨pl2, hperm2, hpl2⟩ := ih2 pl1 hpl1
    exact ⟨pl2, hperm1.trans hperm2, hpl2⟩

/-- C1 (amended): under the data-model assumptions (non-negative
capacities and costs) and the additional assumption that the
cost-effectiveness ordering agrees with the plain per-MW cost ordering
(e.g. when all efficiencies are equal), the greedy solver's `total_cost`
is the true minimum cost over all divisible allocations meeting the
demand, whenever demand does not exceed total capacity.  Without the
agreement assumption the claim is false — see the counterexample. -/
theorem optimize_generation_optimal (sources : List GenSource) (demand : ℚ)
    (hcap : ∀ s ∈ sources, 0 ≤ s.capacity)
    (hcost : ∀ s ∈ sources, 0 ≤ s.cost_per_mw)
    (hagree : ∀ s ∈ sources, ∀ t ∈ sources,
      effCost s ≤ effCost t → s.cost_per_mw ≤ t.cost_per_mw)
    (hdem : demand ≤ (sources.map (fun s => s.capacity)).sum) :
    IsLeast {c : ℚ | ∃ pl : List (GenSource × ℚ), pl.map Prod.fst = sources ∧
        (∀ pa ∈ pl, 0 ≤ pa.2 ∧ pa.2 ≤ pa.1.capacity) ∧
        demand ≤ (pl.map Prod.snd).sum ∧ c = pairCost pl}
      (optimize_generation sources demand).2.1 := by
  have hperm : (sources.mergeSort (fun a b => decide (effCost a ≤ effCost b))).Perm
      sources := List.mergeSort_perm sources _
  set srt := sources.mergeSort (fun a b => decide (effCost a ≤ effCost b)) with hsrt
  have hcapS : ∀ s ∈ srt, 0 ≤ s.capacity := fun s hs => hcap s (hperm.mem_iff.mp hs)
  have hcostS : ∀ s ∈ srt, 0 ≤ s.cost_per_mw := fun s hs => hcost s (hperm.mem_iff.mp hs)
  have hsortedEff : srt.Pairwise (fun a b => decide (effCost a ≤ effCost b) = true) := by
    apply List.sorted_mergeSort
    · intro a b c hab hbc
      simp only [decide_eq_true_eq] at *
      exact le_trans hab hbc
    · intro a b
      simp only [Bool.or_eq_true, decide_eq_true_eq]
      exact le_total _ _
  have hsortedCost : srt.Pairwise (fun a b => a.cost_per_mw ≤ b.cost_per_mw) := by
    refine hsortedEff.imp_of_mem ?_
    intro a b ha hb h
    exact hagree a (hperm.mem_iff.mp ha) b (hperm.mem_iff.mp hb) (by simpa using h)
  have hsumcaps : (srt.map (fun s => s.capacity)).sum
      = (sources.map (fun s => s.capacity)).sum := (hperm.map _).sum_eq
  have hopt : (optimize_generation sources demand).2.1 = gcost srt demand := by
    rw [optimize_eq]
  constructor
  · obtain ⟨pl, hplperm, hplfst⟩ := map_fst_perm_transfer hperm
      (srt.zip (gvec srt demand))
      (List.map_fst_zip srt (gvec srt demand) (by rw [gvec_length]))
    refine ⟨pl, hplfst, ?_, ?_, ?_⟩
    · intro pa hpa
      exact gvec_bounds srt hcapS demand pa (hplperm.mem_iff.mpr hpa)
    · have hsnd : (pl.map Prod.snd).sum
          = ((srt.zip (gvec srt demand)).map Prod.snd).sum :=
        ((hplperm.map Prod.snd).sum_eq).symm
      rw [hsnd, List.map_snd_zip srt (gvec srt demand) (by rw [gvec_length])]
      exact gvec_sum_ge srt hcapS demand (by rw [hsumcaps]; exact hdem)
    · rw [hopt, ← gvec_cost srt demand, pairCost, pairCost]
      exact (hplperm.map _).sum_eq
  · rintro c ⟨pl, hfst, hbd, hmeets, rfl⟩
    obtain ⟨pl', hplperm, hfst'⟩ := map_fst_perm_transfer hperm.symm pl hfst
    rw [hopt]
    have h1 := gcost_le_pairCost srt hsortedCost hcapS hcostS demand pl' hfst'
      (fun pa hpa => hbd pa (hplperm.mem_iff.mpr hpa))
      (by rw [show (pl'.map Prod.snd).sum = (pl.map Prod.snd).sum from
        ((hplperm.map Prod.snd).sum_eq).symm]; exact hmeets)
    refine le_trans h1 (le_of_eq ?_)
    rw [pairCost, pairCost]
    exact ((hplperm.map _).sum_eq).symm

/-- C1 witness: the slider default of the dashboard (demand 250) on the
wind and hydro plants, whose cost-effectiveness and plain-cost orders
agree. -/
theorem optimize_generation_optimal_witness :
    (∀ s ∈ ([⟨"hydro1", 200, 35, 9/10⟩, ⟨"wind1", 150, 45, 4/5⟩] : List GenSource),
      0 ≤ s.capacity) ∧
    (∀ s ∈ ([⟨"hydro1", 200, 35, 9/10⟩, ⟨"wind1", 150, 45, 4/5⟩] : List GenSource),
      0 ≤ s.cost_per_mw) ∧
    (∀ s ∈ ([⟨"hydro1", 200, 35, 9/10⟩, ⟨"wind1", 150, 45, 4/5⟩] : List GenSource),
      ∀ t ∈ ([⟨"hydro1", 200, 35, 9/10⟩, ⟨"wind1", 150, 45, 4/5⟩] : List GenSource),
      effCost s ≤ effCost t → s.cost_per_mw ≤ t.cost_per_mw) ∧
    ((250 : ℚ) ≤ (([⟨"hydro1", 200, 35, 9/10⟩, ⟨"wind1", 150, 45, 4/5⟩]
        : List GenSource).map (fun s => s.capacity)).sum) ∧
    IsLeast {c : ℚ | ∃ pl : List (GenSource × ℚ),
        pl.map Prod.fst = [⟨"hydro1", 200, 35, 9/10⟩, ⟨"wind1", 150, 45, 4/5⟩] ∧
        (∀ pa ∈ pl, 0 ≤ pa.2 ∧ pa.2 ≤ pa.1.capacity) ∧
        (250 : ℚ) ≤ (pl.map Prod.snd).sum ∧ c = pairCost pl}
      (optimize_generation [⟨"hydro1", 200, 35, 9/10⟩, ⟨"wind1", 150, 45, 4/5⟩] 250).2.1
    := by
  have h1 : ∀ s ∈ ([⟨"hydro1", 200, 35, 9/10⟩, ⟨"wind1", 150, 45, 4/5⟩]
      : List GenSource), 0 ≤ s.capacity := by
    intro s hs
    fin_cases hs <;> norm_num
  have h2 : ∀ s ∈ ([⟨"hydro1", 200, 35, 9/10⟩, ⟨"wind1", 150, 45, 4/5⟩]
      : List GenSource), 0 ≤ s.cost_per_mw := by
    intro s hs
    fin_cases hs <;> norm_num
  have h3 : ∀ s ∈ ([⟨"hydro1", 200, 35, 9/10⟩, ⟨"wind1", 150, 45, 4/5⟩]
      : List GenSource), ∀ t ∈ ([⟨"hydro1", 200, 35, 9/10⟩, ⟨"wind1", 150, 45, 4/5⟩]
      : List GenSource), effCost s ≤ effCost t → s.cost_per_mw ≤ t.cost_per_mw := by
    intro s hs t ht
    fin_cases hs <;> fin_cases ht <;> intro h <;> norm_num [effCost] at h ⊢
  have h4 : (250 : ℚ) ≤ (([⟨"hydro1", 200, 35, 9/10⟩, ⟨"wind1", 150, 45, 4/5⟩]
      : List GenSource).map (fun s => s.capacity)).sum := by
    norm_num
  exact ⟨h1, h2, h3, h4, optimize_generation_optimal _ 250 h1 h2 h3 h4⟩

/-- C1 counterexample: two valid sources (demand within total capacity)
where the cost-effectiveness order disagrees with the plain cost order.
The greedy fills source `B` (cheaper per effective MW) for a total cost of
1500, but allocating the same demand to `A` costs 1000, so the returned
`total_cost` is not the minimum achievable cost. -/
theorem optimize_generation_optimal_counterexample :
    ((100 : ℚ) ≤ (([⟨"B", 100, 15, 1⟩, ⟨"A", 100, 10, 1/2⟩]
        : List GenSource).map (fun s => s.capacity)).sum) ∧
    ∃ pl : List (GenSource × ℚ),
      pl.map Prod.fst = [⟨"B", 100, 15, 1⟩, ⟨"A", 100, 10, 1/2⟩] ∧
      (∀ pa ∈ pl, 0 ≤ pa.2 ∧ pa.2 ≤ pa.1.capacity) ∧
      (100 : ℚ) ≤ (pl.map Prod.snd).sum ∧
      pairCost pl
        < (optimize_generation [⟨"B", 100, 15, 1⟩, ⟨"A", 100, 10, 1/2⟩] 100).2.1 := by
  constructor
  · norm_num
  refine ⟨[(⟨"B", 100, 15, 1⟩, 0), (⟨"A", 100, 10, 1/2⟩, 100)], rfl, ?_, ?_, ?_⟩
  · intro pa hpa
    fin_cases hpa <;> norm_num
  · norm_num
  · have hs : ([⟨"B", 100, 15, 1⟩, ⟨"A", 100, 10, 1/2⟩] : List GenSource).mergeSort
        (fun a b => decide (effCost a ≤ effCost b))
        = [⟨"B", 100, 15, 1⟩, ⟨"A", 100, 10, 1/2⟩] := by
      apply List.mergeSort_of_sorted
      refine List.pairwise_cons.mpr ⟨?_, List.pairwise_singleton _ _⟩
      intro t ht
      rcases List.mem_singleton.mp ht with rfl
      norm_num [effCost]
    rw [optimize_eq, hs]
    norm_num [pairCost, gcost, gcost_nonpos]

/-- C6 witness: the three power sources of the dashboard with a demand of
500 MW, above the total capacity of 450 MW. -/
theorem optimize_generation_over_witness :
    (∀ s ∈ ([⟨"solar1", 100, 50, 85/100⟩, ⟨"wind1", 150, 45, 80/100⟩,
        ⟨"hydro1", 200, 35, 90/100⟩] : List GenSource), 0 ≤ s.capacity) ∧
    ((([⟨"solar1", 100, 50, 85/100⟩, ⟨"wind1", 150, 45, 80/100⟩,
        ⟨"hydro1", 200, 35, 90/100⟩] : List GenSource).map
        (fun s => s.capacity)).sum < (500 : ℚ)) ∧
    ((optimize_generation [⟨"solar1", 100, 50, 85/100⟩, ⟨"wind1", 150, 45, 80/100⟩,
          ⟨"hydro1", 200, 35, 90/100⟩] 500).2.2
        = (([⟨"solar1", 100, 50, 85/100⟩, ⟨"wind1", 150, 45, 80/100⟩,
            ⟨"hydro1", 200, 35, 90/100⟩] : List GenSource).map
            (fun s => s.capacity)).sum ∧
      (optimize_generation [⟨"solar1", 100, 50, 85/100⟩, ⟨"wind1", 150, 45, 80/100⟩,
          ⟨"hydro1", 200, 35, 90/100⟩] 500).1
        = ((([⟨"solar1", 100, 50, 85/100⟩, ⟨"wind1", 150, 45, 80/100⟩,
            ⟨"hydro1", 200, 35, 90/100⟩] : List GenSource).mergeSort
            (fun a b => decide (effCost a ≤ effCost b))).filter
            (fun s => decide (0 < s.capacity))).map (fun s => (s.id, s.capacity)) ∧
      (500 : ℚ) - (optimize_generation [⟨"solar1", 100, 50, 85/100⟩,
          ⟨"wind1", 150, 45, 80/100⟩, ⟨"hydro1", 200, 35, 90/100⟩] 500).2.2
        = 500 - (([⟨"solar1", 100, 50, 85/100⟩, ⟨"wind1", 150, 45, 80/100⟩,
            ⟨"hydro1", 200, 35, 90/100⟩] : List GenSource).map
            (fun s => s.capacity)).sum) := by
  have h1 : ∀ s ∈ ([⟨"solar1", 100, 50, 85/100⟩, ⟨"wind1", 150, 45, 80/100⟩,
      ⟨"hydro1", 200, 35, 90/100⟩] : List GenSource), 0 ≤ s.capacity := by
    intro s hs
    fin_cases hs <;> norm_num
  have h2 : (([⟨"solar1", 100, 50, 85/100⟩, ⟨"wind1", 150, 45, 80/100⟩,
      ⟨"hydro1", 200, 35, 90/100⟩] : List GenSource).map
      (fun s => s.capacity)).sum < (500 : ℚ) := by
    norm_num
  exact ⟨h1, h2, optimize_generation_over _ 500 h1 h2⟩

/-! ### Claim theorems for the sorting and searching engines -/

/-- C2: for every finite sequence and every total-order key, both
`bubble_sort` and `quick_sort` return a permutation of the input that is in
non-decreasing order of key values. -/
theorem sorting_algorithms_correct (key : α → K) (l : List α) :
    ((bubble_sort key l).1.Perm l ∧ KSorted key (bubble_sort key l).1) ∧
    ((quick_sort key l).1.Perm l ∧ KSorted key (quick_sort key l).1) := by
  refine ⟨⟨bubble_sort_perm key l, ?_⟩, qsortRec_perm key l, qsortRec_sorted key l⟩
  cases l with
  | nil => simp [bubble_sort, bubbleIter, KSorted]
  | cons a t => exact bubble_sort_sorted a key (a :: t)

/-- C9: on an input of length `n` already sorted under the key,
`bubble_sort` returns the input unchanged with exactly `n*(n-1)/2`
comparisons and `0` swaps. -/
theorem bubble_sort_sorted_counts (key : α → K) (l : List α) (hs : KSorted key l) :
    bubble_sort key l = (l, l.length * (l.length - 1) / 2, 0) :=
  bubbleIter_of_sorted key l.length l le_rfl hs

/-- C9 witness: a concrete sorted input of length 3 yields 3 comparisons
and 0 swaps. -/
theorem bubble_sort_sorted_counts_witness :
    KSorted (fun x : ℤ => x) [1, 2, 3] ∧
      bubble_sort (fun x : ℤ => x) [1, 2, 3] = ([1, 2, 3], 3, 0) :=
  ⟨by unfold KSorted; decide,
   bubble_sort_sorted_counts (fun x : ℤ => x) [1, 2, 3] (by unfold KSorted; decide)⟩

/-- C5: on a sequence sorted ascending by the key, `binary_search` (whose
midpoint is `(left + right) // 2`, floor division, by definition) returns
an index holding the target when the target's key occurs, and `-1` when it
does not. -/
theorem binary_search_correct [Inhabited α] (key : α → K) (arr : List α) (tgt : K)
    (hs : KSorted key arr) :
    ((∃ x ∈ arr, key x = tgt) →
      ∃ i : Nat, (binary_search key arr tgt).1 = (i : Int) ∧ i < arr.length ∧
        key (arr.getD i default) = tgt) ∧
    ((∀ x ∈ arr, key x ≠ tgt) → (binary_search key arr tgt).1 = -1) :=
  ⟨binary_search_found key arr tgt hs, binary_search_absent key arr tgt hs⟩

/-- C5 witness: searching 3 in the sorted list `[1, 3, 5]` finds it. -/
theorem binary_search_correct_witness :
    ∃ i : Nat, (binary_search (fun x : ℤ => x) [1, 3, 5] 3).1 = (i : Int) ∧
      i < ([1, 3, 5] : List ℤ).length ∧
      (fun x : ℤ => x) (([1, 3, 5] : List ℤ).getD i default) = 3 :=
  (binary_search_correct (fun x : ℤ => x) [1, 3, 5] 3 (by unfold KSorted; decide)).1
    ⟨3, by decide, rfl⟩

/-! ### Concrete cross-checks of the embeddings

The outputs below (sorted arrays, comparison and swap counts, search
result, traversal orders) match a run of the reference implementation on
the same inputs. -/

theorem bubble_sort_example :
    bubble_sort (fun x : ℤ => x) [5, 2, 9, 1, 5] = ([1, 2, 5, 5, 9], 10, 5) := by
  decide

theorem quick_sort_example :
    quick_sort (fun x : ℤ => x) [5, 2, 9, 1, 5] = ([1, 2, 5, 5, 9], 7, 7) := by
  simp +decide [quick_sort, qsortRec, partSeg, rot1]

/-- On already sorted input the source's Lomuto partition still counts the
self-swaps of its loop and the pivot swap, as the reference run does. -/
theorem quick_sort_sorted_example :
    quick_sort (fun x : ℤ => x) [1, 2, 3] = ([1, 2, 3], 3, 5) := by
  simp +decide [quick_sort, qsortRec, partSeg, rot1]

theorem binary_search_example :
    binary_search (fun x : ℤ => x) [1, 3, 5, 7] 7 = (3, 3) := by
  simp +decide [binary_search, bsAux]

theorem dfs_example :
    dfs refNet "solar1" none
      = .ok (["solar1", "sub1", "hydro1", "sub2", "wind1", "city2", "factory1",
          "city1"], 8) := rfl

theorem bfs_example :
    bfs refNet "solar1" none
      = .ok (["solar1", "sub1", "hydro1", "city1", "city2", "sub2", "wind1",
          "factory1"], 8) := rfl

theorem is_connected_example : is_connected refNet = true := rfl

end SG
